import Mathlib

/-!
Verification of the `goit-algo-fp` repository.

Each task module of the repository is shallowly embedded: Python functions
become Lean functions on explicit data, machine-level details (object
identity, in-place mutation) are represented by the values they compute.
Python `float` weights are modelled by exact rationals `ℚ` and
`float('inf')` by `⊤ : WithTop ℚ`; Python `int` is `Int`/`Nat` as
appropriate.
-/

set_option maxHeartbeats 1600000

namespace GoitAlgoFP

/-! ## task1.py — singly linked list

A chain of `Node` objects is modelled by the Lean list of its node data
(the suffix of the chain starting at a node stands for that node; `None`
is the empty list).  `LinkedList.to_list` is then the identity, so the
"element sequence as given by to_list" of a modelled list is the list
itself.
-/

namespace Task1

/-- The `while current:` loop of `reverse_linked_list`: `prev` accumulates
the already-rewired nodes (`current.next = prev`), `current` walks the
remaining chain. -/
def reverseLoop : List Int → List Int → List Int
  | prev, [] => prev
  | prev, x :: next => reverseLoop (x :: prev) next

/-- `reverse_linked_list` from task1.py: reverses the chain by pointer
rewiring, starting with `prev = None`. -/
def reverse_linked_list (l : List Int) : List Int :=
  reverseLoop [] l

/-- `merge_sorted_lists_nodes` from task1.py: two-pointer merge; when both
heads remain, the one with `data <=` wins, and the leftover chain is
attached at the end. -/
def merge_sorted_lists_nodes : List Int → List Int → List Int
  | [], node2 => node2
  | node1, [] => node1
  | x :: xs, y :: ys =>
    if x ≤ y then x :: merge_sorted_lists_nodes xs (y :: ys)
    else y :: merge_sorted_lists_nodes (x :: xs) ys
termination_by l1 l2 => l1.length + l2.length

/-- The slow/fast two-pointer walk of `get_middle`: while `fast`,
`fast.next` and `fast.next.next` all exist, `slow` advances one node and
`fast` two. -/
def midAux : List Int → List Int → List Int
  | slow, _ :: _ :: f3 :: rest => midAux slow.tail (f3 :: rest)
  | slow, _ => slow

/-- `get_middle` from task1.py: `None` for the empty list, otherwise the
middle node reached by the slow pointer. -/
def get_middle (head : List Int) : Option (List Int) :=
  match head with
  | [] => none
  | _ => some (midAux head head)

/-- Number of slow-pointer steps taken by `get_middle` on a chain of the
given length (the fast pointer consumes two nodes per step and needs a
third ahead). -/
def halfSteps : ℕ → ℕ
  | n + 3 => halfSteps (n + 1) + 1
  | _ => 0

theorem halfSteps_eq : ∀ n : ℕ, halfSteps n = (n - 1) / 2
  | 0 => rfl
  | 1 => rfl
  | 2 => rfl
  | n + 3 => by
    have h := halfSteps_eq (n + 1)
    simp only [halfSteps]
    omega

theorem midAux_eq_drop : ∀ fast slow : List Int,
    midAux slow fast = slow.drop (halfSteps fast.length)
  | [], slow => by simp [midAux, halfSteps]
  | [_], slow => by simp [midAux, halfSteps]
  | [_, _], slow => by simp [midAux, halfSteps]
  | _ :: _ :: f3 :: rest, slow => by
    have h := midAux_eq_drop (f3 :: rest) slow.tail
    simp only [midAux, h, List.length_cons]
    have h3 : halfSteps (rest.length + 1 + 1 + 1) = halfSteps (rest.length + 1) + 1 := by
      simp [halfSteps]
    rw [h3, ← List.drop_one slow, List.drop_drop, Nat.add_comm]

theorem midAux_self_eq (l : List Int) :
    midAux l l = l.drop ((l.length - 1) / 2) := by
  rw [midAux_eq_drop, halfSteps_eq]

/-- The recursive `sort` helper of `merge_sort_linked_list`: chains of
length ≤ 1 are already sorted; otherwise the chain is cut just after the
middle node (`middle.next = None`), both halves are sorted recursively and
merged.  The cut point is expressed by lengths: the left half is the
prefix of the original chain that ends at the middle node. -/
def sortNodes : List Int → List Int
  | [] => []
  | [x] => [x]
  | a :: b :: rest =>
    merge_sorted_lists_nodes
      (sortNodes ((a :: b :: rest).take
        ((a :: b :: rest).length - (midAux (a :: b :: rest) (a :: b :: rest)).length + 1)))
      (sortNodes ((midAux (a :: b :: rest) (a :: b :: rest)).tail))
termination_by l => l.length
decreasing_by
  · rw [midAux_self_eq]
    simp only [List.length_take, List.length_drop, List.length_cons]
    omega
  · rw [midAux_self_eq, List.tail_drop]
    simp only [List.length_drop, List.length_cons]
    omega

/-- `merge_sort_linked_list` from task1.py: the wrapper returns chains of
length ≤ 1 unchanged and otherwise replaces the head with the sorted
chain; both behaviours coincide with `sortNodes`. -/
def merge_sort_linked_list (l : List Int) : List Int :=
  sortNodes l

theorem reverseLoop_eq (l acc : List Int) :
    reverseLoop acc l = l.reverse ++ acc := by
  induction l generalizing acc with
  | nil => simp [reverseLoop]
  | cons x xs ih => simp [reverseLoop, ih]

theorem merge_nodes_perm : ∀ l1 l2 : List Int,
    (merge_sorted_lists_nodes l1 l2).Perm (l1 ++ l2)
  | [], l2 => by simp [merge_sorted_lists_nodes]
  | x :: xs, [] => by simp [merge_sorted_lists_nodes]
  | x :: xs, y :: ys => by
    rw [merge_sorted_lists_nodes]
    split
    · exact (merge_nodes_perm xs (y :: ys)).cons x
    · refine ((merge_nodes_perm (x :: xs) ys).cons y).trans ?_
      exact List.perm_middle.symm
termination_by l1 l2 => l1.length + l2.length

theorem mem_merge_nodes {a : Int} {l1 l2 : List Int}
    (h : a ∈ merge_sorted_lists_nodes l1 l2) : a ∈ l1 ++ l2 :=
  (merge_nodes_perm l1 l2).mem_iff.mp h

theorem merge_nodes_sorted : ∀ l1 l2 : List Int,
    l1.Sorted (· ≤ ·) → l2.Sorted (· ≤ ·) →
    (merge_sorted_lists_nodes l1 l2).Sorted (· ≤ ·)
  | [], l2 => fun _ h2 => by simpa [merge_sorted_lists_nodes] using h2
  | x :: xs, [] => fun h1 _ => by simpa [merge_sorted_lists_nodes] using h1
  | x :: xs, y :: ys => fun h1 h2 => by
    rw [List.sorted_cons] at h1 h2
    rw [merge_sorted_lists_nodes]
    split
    · rename_i hxy
      rw [List.sorted_cons]
      refine ⟨?_, merge_nodes_sorted xs (y :: ys) h1.2 (List.sorted_cons.mpr h2)⟩
      intro b hb
      rcases List.mem_append.mp (mem_merge_nodes hb) with hb | hb
      · exact h1.1 b hb
      · rcases List.mem_cons.mp hb with rfl | hb
        · exact hxy
        · exact le_trans hxy (h2.1 b hb)
    · rename_i hxy
      push_neg at hxy
      rw [List.sorted_cons]
      refine ⟨?_, merge_nodes_sorted (x :: xs) ys (List.sorted_cons.mpr h1) h2.2⟩
      intro b hb
      rcases List.mem_append.mp (mem_merge_nodes hb) with hb | hb
      · rcases List.mem_cons.mp hb with rfl | hb
        · exact le_of_lt hxy
        · exact le_trans (le_of_lt hxy) (h1.1 b hb)
      · exact h2.1 b hb
termination_by l1 l2 => l1.length + l2.length

theorem sortNodes_eq : ∀ l : List Int, 2 ≤ l.length →
    sortNodes l = merge_sorted_lists_nodes
      (sortNodes (l.take ((l.length - 1) / 2 + 1)))
      (sortNodes (l.drop ((l.length - 1) / 2 + 1)))
  | a :: b :: rest, _ => by
    rw [sortNodes, midAux_self_eq, List.tail_drop]
    have hA : (a :: b :: rest).length
          - ((a :: b :: rest).drop (((a :: b :: rest).length - 1) / 2)).length + 1
        = ((a :: b :: rest).length - 1) / 2 + 1 := by
      simp only [List.length_drop, List.length_cons]
      omega
    rw [hA]

theorem sortNodes_spec (l : List Int) :
    (sortNodes l).Sorted (· ≤ ·) ∧ (sortNodes l).Perm l := by
  match l with
  | [] => simp [sortNodes]
  | [x] => simp [sortNodes]
  | a :: b :: rest =>
    have hlen : 2 ≤ (a :: b :: rest).length := by simp
    have h1 : ((a :: b :: rest).take (((a :: b :: rest).length - 1) / 2 + 1)).length
        < (a :: b :: rest).length := by
      simp only [List.length_take, List.length_cons]
      omega
    have h2 : ((a :: b :: rest).drop (((a :: b :: rest).length - 1) / 2 + 1)).length
        < (a :: b :: rest).length := by
      simp only [List.length_drop, List.length_cons]
      omega
    have ihl := sortNodes_spec ((a :: b :: rest).take (((a :: b :: rest).length - 1) / 2 + 1))
    have ihr := sortNodes_spec ((a :: b :: rest).drop (((a :: b :: rest).length - 1) / 2 + 1))
    rw [sortNodes_eq _ hlen]
    refine ⟨merge_nodes_sorted _ _ ihl.1 ihr.1, ?_⟩
    refine (merge_nodes_perm _ _).trans ?_
    refine (List.Perm.append ihl.2 ihr.2).trans ?_
    rw [List.take_append_drop]
termination_by l.length
decreasing_by
  · exact h1
  · exact h2

/-- C8: `merge_sort_linked_list` returns a chain whose element sequence is
sorted in non-decreasing order and is a permutation of the input's element
sequence; empty and single-element chains are returned unchanged. -/
theorem merge_sort_linked_list_correct (l : List Int) :
    (merge_sort_linked_list l).Sorted (· ≤ ·) ∧
    (merge_sort_linked_list l).Perm l ∧
    merge_sort_linked_list ([] : List Int) = [] ∧
    (∀ x : Int, merge_sort_linked_list [x] = [x]) :=
  ⟨(sortNodes_spec l).1, (sortNodes_spec l).2,
    by simp [merge_sort_linked_list, sortNodes],
    fun x => by simp [merge_sort_linked_list, sortNodes]⟩

/-- C9: `reverse_linked_list` returns the chain whose element sequence is
exactly the reverse of the input's element sequence (so no values are
added, removed, or changed). -/
theorem reverse_linked_list_correct (l : List Int) :
    reverse_linked_list l = l.reverse ∧
    (reverse_linked_list l).Perm l := by
  have h : reverse_linked_list l = l.reverse := by
    rw [reverse_linked_list, reverseLoop_eq, List.append_nil]
  exact ⟨h, h ▸ List.reverse_perm l⟩

end Task1

/-! ## task5.py — binary-tree traversals

A `Node` of task5.py (with `val`, optional `left`/`right` children; the
`color` and `id` fields exist only for plotting and are omitted) is
modelled by an inductive binary tree, `None` by the `nil` constructor.
The traversal functions return lists of nodes; in the model a node is
represented by the subtree rooted at it.
-/

namespace Task5

inductive BTree where
  | nil : BTree
  | node (val : Int) (left right : BTree) : BTree
deriving DecidableEq

namespace BTree

def size : BTree → ℕ
  | nil => 0
  | node _ l r => 1 + size l + size r

def height : BTree → ℕ
  | nil => 0
  | node _ l r => max (height l) (height r) + 1

end BTree

open BTree

/-- Concatenation of the lists produced by `f` over a list (used for
stating specifications; `List.flatMap` spelled out). -/
def catMaps (f : α → List β) : List α → List β
  | [] => []
  | a :: l => f a ++ catMaps f l

theorem catMaps_append (f : α → List β) (l1 l2 : List α) :
    catMaps f (l1 ++ l2) = catMaps f l1 ++ catMaps f l2 := by
  induction l1 with
  | nil => simp [catMaps]
  | cons a l ih => simp [catMaps, ih]

theorem catMaps_map (f : β → List γ) (g : α → β) (l : List α) :
    catMaps f (l.map g) = catMaps (fun a => f (g a)) l := by
  induction l with
  | nil => simp [catMaps]
  | cons a l ih => simp [catMaps, ih]

/-- The children pushed for one visited node: `left` first, then `right`,
each only if present (`if node.left: ...`, `if node.right: ...`). -/
def childStack (l r : BTree) : List BTree :=
  (if l = nil then [] else [l]) ++ (if r = nil then [] else [r])

/-- Children of a tree in the queue/stack sense (`nil` has none). -/
def childrenOf : BTree → List BTree
  | nil => []
  | node _ l r => childStack l r

/-- Sum of subtree sizes of a worklist plus its length: the termination
measure of both traversal loops. -/
def workMeasure (l : List BTree) : ℕ :=
  2 * (l.map size).sum + l.length


theorem workMeasure_childStack (v : Int) (l r : BTree) (rest : List BTree) :
    workMeasure (childStack l r ++ rest) < workMeasure (node v l r :: rest) := by
  unfold workMeasure childStack
  cases l <;> cases r <;> simp [size] <;> omega

theorem workMeasure_childStack_back (v : Int) (l r : BTree) (rest : List BTree) :
    workMeasure (rest ++ childStack l r) < workMeasure (node v l r :: rest) := by
  unfold workMeasure childStack
  cases l <;> cases r <;> simp [size] <;> omega

theorem workMeasure_tail (t : BTree) (rest : List BTree) :
    workMeasure rest < workMeasure (t :: rest) := by
  simp only [workMeasure, List.map_cons, List.sum_cons, List.length_cons]
  omega

/-- The `while stack:` loop of `dfs_traversal`: pop the top node, record
it, push its right child then its left child (so the left child is popped
first).  The stack is modelled with its head as the top; a `nil` entry
never occurs (only non-`None` children are pushed) and is skipped. -/
def dfsLoop : List BTree → List BTree
  | [] => []
  | nil :: stack => dfsLoop stack
  | node v l r :: stack => node v l r :: dfsLoop (childStack l r ++ stack)
termination_by stack => workMeasure stack
decreasing_by
  · exact workMeasure_tail ..
  · exact workMeasure_childStack ..

/-- `dfs_traversal` from task5.py: `[]` for `root = None`, otherwise the
stack loop started with `[root]`. -/
def dfs_traversal : BTree → List BTree
  | nil => []
  | node v l r => dfsLoop [node v l r]

/-- The `while queue:` loop of `bfs_traversal`: pop the front node, record
it, append its children (left then right) at the back. -/
def bfsLoop : List BTree → List BTree
  | [] => []
  | nil :: queue => bfsLoop queue
  | node v l r :: queue => node v l r :: bfsLoop (queue ++ childStack l r)
termination_by queue => workMeasure queue
decreasing_by
  · exact workMeasure_tail ..
  · exact workMeasure_childStack_back ..

/-- `bfs_traversal` from task5.py: `[]` for `root = None`, otherwise the
queue loop started with `[root]`. -/
def bfs_traversal : BTree → List BTree
  | nil => []
  | node v l r => bfsLoop [node v l r]

/-- Preorder listing of the nodes of a tree (each node before its left
subtree, left subtree before right subtree). -/
def preorder : BTree → List BTree
  | nil => []
  | node v l r => node v l r :: (preorder l ++ preorder r)

/-- The nodes of a tree at a given depth, from left to right. -/
def atDepth : BTree → ℕ → List BTree
  | nil, _ => []
  | node v l r, 0 => [node v l r]
  | node _ l r, d + 1 => atDepth l d ++ atDepth r d

theorem catMaps_preorder_childStack (l r : BTree) :
    catMaps preorder (childStack l r) = preorder l ++ preorder r := by
  unfold childStack
  cases l <;> cases r <;> simp [catMaps, preorder]

theorem dfsLoop_eq_catMaps : ∀ stack : List BTree,
    dfsLoop stack = catMaps preorder stack
  | [] => by simp [dfsLoop, catMaps]
  | nil :: stack => by
    have ih := dfsLoop_eq_catMaps stack
    simp only [dfsLoop, ih, catMaps, preorder, List.nil_append]
  | node v l r :: stack => by
    have ih := dfsLoop_eq_catMaps (childStack l r ++ stack)
    simp only [dfsLoop, ih]
    rw [catMaps_append, catMaps_preorder_childStack]
    simp [catMaps, preorder]
termination_by stack => workMeasure stack
decreasing_by
  · exact workMeasure_tail ..
  · exact workMeasure_childStack ..

theorem bfsLoop_round : ∀ q rest : List BTree,
    bfsLoop (q ++ rest) =
      q.filter (fun t => t ≠ nil) ++ bfsLoop (rest ++ catMaps childrenOf q)
  | [], rest => by simp [catMaps]
  | nil :: q, rest => by
    have ih := bfsLoop_round q rest
    simp only [List.cons_append, bfsLoop, catMaps, childrenOf]
    rw [ih]
    simp [List.filter]
  | node v l r :: q, rest => by
    have ih := bfsLoop_round q (rest ++ childStack l r)
    simp only [List.cons_append, bfsLoop, catMaps, childrenOf]
    rw [List.append_assoc, ih]
    simp only [List.filter, List.append_assoc]
    constructor
termination_by q rest => q.length

theorem bfsLoop_perm : ∀ q : List BTree, (bfsLoop q).Perm (catMaps preorder q)
  | [] => by simp [bfsLoop, catMaps]
  | nil :: q => by
    have ih := bfsLoop_perm q
    simp only [bfsLoop, catMaps, preorder, List.nil_append]
    exact ih
  | node v l r :: q => by
    simp only [bfsLoop]
    refine List.Perm.trans (List.Perm.cons _ (bfsLoop_perm (q ++ childStack l r))) ?_
    rw [catMaps_append, catMaps_preorder_childStack]
    simp only [catMaps, preorder, List.cons_append]
    exact List.Perm.cons _ List.perm_append_comm
termination_by q => workMeasure q
decreasing_by
  · exact workMeasure_tail ..
  · exact workMeasure_childStack_back ..

theorem atDepth_childStack (l r : BTree) (d : ℕ) :
    catMaps (fun t => atDepth t d) (childStack l r) = atDepth l d ++ atDepth r d := by
  unfold childStack
  cases l <;> cases r <;> simp [catMaps, atDepth]

theorem atDepth_children (t : BTree) (d : ℕ) :
    catMaps (fun s => atDepth s d) (childrenOf t) = atDepth t (d + 1) := by
  cases t with
  | nil => simp [childrenOf, catMaps, atDepth]
  | node v l r => simpa [childrenOf, atDepth] using atDepth_childStack l r d

theorem atDepthQ_children (q : List BTree) (d : ℕ) :
    catMaps (fun s => atDepth s d) (catMaps childrenOf q)
      = catMaps (fun s => atDepth s (d + 1)) q := by
  induction q with
  | nil => simp [catMaps]
  | cons t q ih =>
    simp only [catMaps, catMaps_append, ih, atDepth_children]

theorem atDepth_zero_filter (q : List BTree) :
    catMaps (fun s => atDepth s 0) q = q.filter (fun t => t ≠ nil) := by
  induction q with
  | nil => simp [catMaps]
  | cons t q ih =>
    cases t <;> simp [catMaps, atDepth, ih, List.filter]

/-- The largest height of a tree in a worklist. -/
def maxHeight (q : List BTree) : ℕ :=
  (q.map height).foldr max 0

theorem maxHeight_cons (t : BTree) (q : List BTree) :
    maxHeight (t :: q) = max (height t) (maxHeight q) := by
  simp [maxHeight]

theorem maxHeight_append (l1 l2 : List BTree) :
    maxHeight (l1 ++ l2) = max (maxHeight l1) (maxHeight l2) := by
  induction l1 with
  | nil => simp [maxHeight]
  | cons a l ih =>
    simp only [List.cons_append, maxHeight_cons, ih]
    omega

theorem maxHeight_childrenOf {t : BTree} {K : ℕ} (h : height t ≤ K + 1) :
    maxHeight (childrenOf t) ≤ K := by
  cases t with
  | nil => simp [childrenOf, maxHeight]
  | node v l r =>
    have hlr : height l ≤ K ∧ height r ≤ K := by
      revert h
      simp only [height]
      omega
    unfold childrenOf childStack
    rw [maxHeight_append]
    have h1 : maxHeight (if l = nil then [] else [l]) ≤ K := by
      split
      · simp [maxHeight]
      · have := hlr.1
        simp only [maxHeight, List.map_cons, List.map_nil, List.foldr_cons, List.foldr_nil]
        omega
    have h2 : maxHeight (if r = nil then [] else [r]) ≤ K := by
      split
      · simp [maxHeight]
      · have := hlr.2
        simp only [maxHeight, List.map_cons, List.map_nil, List.foldr_cons, List.foldr_nil]
        omega
    omega

theorem maxHeight_children {q : List BTree} {K : ℕ} (h : maxHeight q ≤ K + 1) :
    maxHeight (catMaps childrenOf q) ≤ K := by
  induction q with
  | nil => simp [catMaps, maxHeight]
  | cons t q ih =>
    rw [maxHeight_cons] at h
    rw [catMaps, maxHeight_append]
    have h1 : maxHeight (childrenOf t) ≤ K := maxHeight_childrenOf (by omega)
    have h2 : maxHeight (catMaps childrenOf q) ≤ K := ih (by omega)
    omega

theorem atDepth_of_height_le {t : BTree} : ∀ {d : ℕ}, height t ≤ d → atDepth t d = [] := by
  induction t with
  | nil => intro d _; cases d <;> simp [atDepth]
  | node v l r ihl ihr =>
    intro d hd
    cases d with
    | zero => simp [height] at hd
    | succ d =>
      have hlr : height l ≤ d ∧ height r ≤ d := by
        revert hd
        simp only [height]
        omega
      simp [atDepth, ihl hlr.1, ihr hlr.2]

theorem bfsLoop_all_nil : ∀ q : List BTree, (∀ t ∈ q, t = nil) → bfsLoop q = []
  | [], _ => by simp [bfsLoop]
  | t :: q, h => by
    have ht := h t (List.mem_cons_self _ _)
    subst ht
    simp only [bfsLoop]
    exact bfsLoop_all_nil q (fun s hs => h s (List.mem_cons_of_mem _ hs))
termination_by q => workMeasure q
decreasing_by
  · exact workMeasure_tail ..

theorem height_mem_le : ∀ {t : BTree} {q : List BTree}, t ∈ q → height t ≤ maxHeight q := by
  intro t q
  induction q with
  | nil => intro h; cases h
  | cons s q ih =>
    intro h
    rw [maxHeight_cons]
    rcases List.mem_cons.mp h with rfl | hm
    · omega
    · have := ih hm
      omega

theorem bfsLoop_levels : ∀ (K : ℕ) (q : List BTree), maxHeight q ≤ K →
    bfsLoop q = catMaps (fun d => catMaps (fun s => atDepth s d) q) (List.range K)
  | 0, q => by
    intro hq
    have hnil : ∀ t ∈ q, t = nil := by
      intro t ht
      have hle : height t ≤ maxHeight q := height_mem_le ht
      cases t with
      | nil => rfl
      | node v l r =>
        exfalso
        have : 1 ≤ height (node v l r) := by simp [height]
        omega
    rw [bfsLoop_all_nil q hnil]
    simp [List.range_zero, catMaps]
  | K + 1, q => by
    intro hq
    have hround : bfsLoop q = q.filter (fun t => t ≠ nil)
        ++ bfsLoop (catMaps childrenOf q) := by
      have h := bfsLoop_round q []
      simpa using h
    have hch : maxHeight (catMaps childrenOf q) ≤ K := maxHeight_children hq
    rw [hround, bfsLoop_levels K (catMaps childrenOf q) hch]
    rw [List.range_succ_eq_map]
    simp only [catMaps, atDepth_zero_filter]
    rw [catMaps_map]
    congr 1
    refine congrArg (fun f => catMaps f (List.range K)) ?_
    funext d
    exact atDepthQ_children q d

/-- C10: `dfs_traversal` returns exactly the nodes of the tree in
preorder, `bfs_traversal` returns a permutation of the same nodes in
level order (the concatenation of the depth-`d` slices, left to right
within each slice), and both return `[]` for `root = None` (`nil`). -/
theorem traversals_correct (t : BTree) :
    dfs_traversal t = preorder t ∧
    bfs_traversal t
      = catMaps (fun d => atDepth t d) (List.range (height t)) ∧
    (bfs_traversal t).Perm (dfs_traversal t) ∧
    dfs_traversal nil = [] ∧ bfs_traversal nil = [] := by
  have hdfs : dfs_traversal t = preorder t := by
    cases t with
    | nil => simp [dfs_traversal, preorder]
    | node v l r =>
      rw [dfs_traversal, dfsLoop_eq_catMaps]
      simp [catMaps]
  have hbfs : bfs_traversal t = catMaps (fun d => atDepth t d) (List.range (height t)) := by
    cases t with
    | nil => simp [bfs_traversal, height, List.range_zero, catMaps]
    | node v l r =>
      rw [bfs_traversal,
        bfsLoop_levels (height (node v l r)) [node v l r] (by simp [maxHeight])]
      congr 1
      funext d
      simp [catMaps]
  refine ⟨hdfs, hbfs, ?_, rfl, rfl⟩
  rw [hdfs]
  cases t with
  | nil => simp [bfs_traversal, preorder]
  | node v l r =>
    rw [bfs_traversal]
    refine (bfsLoop_perm [node v l r]).trans ?_
    simp [catMaps]

end Task5

/-! ## task6.py — greedy vs dynamic programming food selection

The `items` dict (name → `{"cost": ..., "calories": ...}`) is modelled by
an association list in insertion order; a selection dict (name → quantity)
likewise.  Python's float ratio `calories / cost` is modelled by the exact
rational.  `dp` and `choices` are Python lists mutated in place, modelled
by Lean lists updated with `List.set`.
-/

namespace Task6

structure FoodInfo where
  cost : ℕ
  calories : ℕ
deriving DecidableEq

/-- An `items` dict: association list of names in insertion order. -/
abbrev Items := List (String × FoodInfo)

/-- A selection dict (name → quantity) in insertion order. -/
abbrev Selection := List (String × ℕ)

/-- Dict lookup `items[name]` (the callers only look up present keys; a
missing key yields the zero record). -/
def lookupInfo (items : Items) (name : String) : FoodInfo :=
  ((items.find? (fun p => p.1 == name)).map Prod.snd).getD ⟨0, 0⟩

/-- `calculate_totals` from task6.py: accumulates
`items[name]["cost"] * quantity` and `items[name]["calories"] * quantity`
over the selection. -/
def calculate_totals (items : Items) (selected : Selection) : ℕ × ℕ :=
  selected.foldl
    (fun t p =>
      (t.1 + (lookupInfo items p.1).cost * p.2,
       t.2 + (lookupInfo items p.1).calories * p.2))
    (0, 0)

/-- `greedy_algorithm` from task6.py: build the (name, calories/cost)
ratio list, sort it by ratio descending (Python's stable sort with
`reverse=True`), then repeatedly buy `remaining_budget // cost` units of
each dish in that order. -/
def greedy_algorithm (items : Items) (budget : ℕ) : Selection :=
  (((items.map (fun p => (p.1, (p.2.calories : ℚ) / (p.2.cost : ℚ)))).mergeSort
      (fun a b => decide (b.2 ≤ a.2))).foldl
    (fun st p =>
      let cost := (lookupInfo items p.1).cost
      let quantity := st.2 / cost
      if 0 < quantity then (st.1 ++ [(p.1, quantity)], st.2 - quantity * cost)
      else st)
    (([] : Selection), budget)).1

/-- The dict update `d[name] = d.get(name, 0) + 1` (insertion order is
preserved for existing keys, new keys are appended). -/
def dictIncr (d : Selection) (name : String) : Selection :=
  if d.any (fun q => q.1 == name) then
    d.map (fun q => if q.1 == name then (q.1, q.2 + 1) else q)
  else d ++ [(name, 1)]

/-- One step of the inner `for item_name in item_list:` loop of
`dynamic_programming` for budget value `w`: if the item fits
(`cost <= w`) and `dp[w - cost] + calories` beats `dp[w]`, overwrite
`dp[w]` and record the improved choice `choices[w - cost].copy()` plus one
unit of the item. -/
def dpStep (w : ℕ) (st : List ℕ × List Selection) (p : String × FoodInfo) :
    List ℕ × List Selection :=
  if p.2.cost ≤ w then
    if st.1.getD w 0 < st.1.getD (w - p.2.cost) 0 + p.2.calories then
      (st.1.set w (st.1.getD (w - p.2.cost) 0 + p.2.calories),
       st.2.set w (dictIncr (st.2.getD (w - p.2.cost) []) p.1))
    else st
  else st

/-- The inner item loop of `dynamic_programming` for one budget value. -/
def dpInner (items : Items) (w : ℕ) (st : List ℕ × List Selection) :
    List ℕ × List Selection :=
  items.foldl (dpStep w) st

/-- The `dp` and `choices` tables of `dynamic_programming` after the outer
loop `for w in range(1, budget + 1)`. -/
def dpTables (items : Items) (budget : ℕ) : List ℕ × List Selection :=
  (List.range' 1 budget).foldl (fun st w => dpInner items w st)
    (List.replicate (budget + 1) 0, List.replicate (budget + 1) [])

/-- `dynamic_programming` from task6.py: the recorded choice for the full
budget. -/
def dynamic_programming (items : Items) (budget : ℕ) : Selection :=
  (dpTables items budget).2.getD budget []

/-- Hypotheses of the claims: the items dict has (necessarily) distinct
names and every cost is a positive integer. -/
def GoodItems (items : Items) : Prop :=
  (items.map Prod.fst).Nodup ∧ ∀ p ∈ items, 0 < p.2.cost

instance (items : Items) : Decidable (GoodItems items) := by
  unfold GoodItems
  infer_instance

theorem calculate_totals_go (items : Items) :
    ∀ (sel : Selection) (a b : ℕ),
    sel.foldl
      (fun t p =>
        (t.1 + (lookupInfo items p.1).cost * p.2,
         t.2 + (lookupInfo items p.1).calories * p.2))
      (a, b)
    = (a + (sel.map (fun p => (lookupInfo items p.1).cost * p.2)).sum,
       b + (sel.map (fun p => (lookupInfo items p.1).calories * p.2)).sum)
  | [], a, b => by simp
  | p :: sel, a, b => by
    simp only [List.foldl_cons, List.map_cons, List.sum_cons]
    rw [calculate_totals_go items sel]
    simp [Nat.add_assoc]

theorem calculate_totals_eq (items : Items) (sel : Selection) :
    calculate_totals items sel
    = ((sel.map (fun p => (lookupInfo items p.1).cost * p.2)).sum,
       (sel.map (fun p => (lookupInfo items p.1).calories * p.2)).sum) := by
  rw [calculate_totals, calculate_totals_go]
  simp

theorem calculate_totals_append (items : Items) (s1 s2 : Selection) :
    calculate_totals items (s1 ++ s2)
    = ((calculate_totals items s1).1 + (calculate_totals items s2).1,
       (calculate_totals items s1).2 + (calculate_totals items s2).2) := by
  simp [calculate_totals_eq]

theorem calculate_totals_cons (items : Items) (q : String × ℕ) (s : Selection) :
    calculate_totals items (q :: s)
    = ((lookupInfo items q.1).cost * q.2 + (calculate_totals items s).1,
       (lookupInfo items q.1).calories * q.2 + (calculate_totals items s).2) := by
  simp [calculate_totals_eq]

theorem lookupInfo_of_mem {items : Items} (hnd : (items.map Prod.fst).Nodup)
    {p : String × FoodInfo} (hp : p ∈ items) : lookupInfo items p.1 = p.2 := by
  induction items with
  | nil => cases hp
  | cons q rest ih =>
    rw [List.map_cons, List.nodup_cons] at hnd
    rcases List.mem_cons.mp hp with rfl | hp
    · rw [lookupInfo, List.find?_cons_of_pos _ (by simp)]
      rfl
    · have hne : (q.1 == p.1) = false := by
        rw [beq_eq_false_iff_ne]
        intro h
        exact hnd.1 (h ▸ List.mem_map_of_mem Prod.fst hp)
      rw [lookupInfo, List.find?_cons_of_neg _ (by simp [hne])]
      exact ih hnd.2 hp

theorem map_incr_of_not_mem {d : Selection} {name : String}
    (h : ∀ q ∈ d, q.1 ≠ name) :
    d.map (fun q => if q.1 == name then (q.1, q.2 + 1) else q) = d := by
  induction d with
  | nil => rfl
  | cons q rest ih =>
    have hq : (q.1 == name) = false :=
      beq_eq_false_iff_ne.mpr (h q (List.mem_cons_self _ _))
    simp only [List.map_cons, hq, Bool.false_eq_true, if_false]
    rw [ih (fun r hr => h r (List.mem_cons_of_mem _ hr))]

theorem dictIncr_cons_ne {q : String × ℕ} {rest : Selection} {name : String}
    (hq : q.1 ≠ name) :
    dictIncr (q :: rest) name = q :: dictIncr rest name := by
  have hqf : (q.1 == name) = false := beq_eq_false_iff_ne.mpr hq
  by_cases hany : rest.any (fun r => r.1 == name)
  · rw [dictIncr, if_pos (by simp [List.any_cons, hany]), dictIncr, if_pos hany]
    simp only [List.map_cons]
    rw [if_neg (show ¬((q.1 == name) = true) by simp [hqf])]
  · rw [dictIncr, if_neg (by simp [List.any_cons, hqf, hany]), dictIncr, if_neg hany]
    simp

theorem dictIncr_totals (items : Items) :
    ∀ (d : Selection), (d.map Prod.fst).Nodup → ∀ name : String,
    calculate_totals items (dictIncr d name)
      = ((calculate_totals items d).1 + (lookupInfo items name).cost,
         (calculate_totals items d).2 + (lookupInfo items name).calories)
  | [], _, name => by
    rw [dictIncr, if_neg (by simp)]
    simp [calculate_totals_eq]
  | q :: rest, hnd, name => by
    rw [List.map_cons, List.nodup_cons] at hnd
    by_cases hq : q.1 = name
    · subst hq
      have hany : (q :: rest).any (fun r => r.1 == q.1) = true := by
        simp [List.any_cons]
      rw [dictIncr, if_pos hany]
      have hrest : rest.map (fun r => if r.1 == q.1 then (r.1, r.2 + 1) else r) = rest := by
        refine map_incr_of_not_mem ?_
        intro r hr hEq
        refine hnd.1 ?_
        rw [show q.1 = r.1 from hEq.symm]
        exact List.mem_map_of_mem Prod.fst hr
      simp only [List.map_cons, beq_self_eq_true, if_true, hrest]
      rw [calculate_totals_cons, calculate_totals_cons]
      simp only [Prod.mk.injEq, Nat.mul_succ]
      constructor <;> omega
    · rw [dictIncr_cons_ne hq, calculate_totals_cons, calculate_totals_cons,
        dictIncr_totals items rest hnd.2 name]
      simp only [Prod.mk.injEq]
      constructor <;> omega

theorem dictIncr_fst_of_mem {d : Selection} {name s : String}
    (h : s ∈ (dictIncr d name).map Prod.fst) :
    s ∈ d.map Prod.fst ∨ s = name := by
  rw [dictIncr] at h
  split at h
  · left
    rcases List.mem_map.mp h with ⟨q, hq, rfl⟩
    rcases List.mem_map.mp hq with ⟨r, hr, rfl⟩
    by_cases hrn : (r.1 == name) = true
    · simpa [hrn] using List.mem_map_of_mem Prod.fst hr
    · simpa [hrn] using List.mem_map_of_mem Prod.fst hr
  · rw [List.map_append, List.mem_append] at h
    rcases h with h | h
    · exact Or.inl h
    · right
      simpa using h

theorem dictIncr_fst_nodup {d : Selection} {name : String}
    (hnd : (d.map Prod.fst).Nodup) : ((dictIncr d name).map Prod.fst).Nodup := by
  rw [dictIncr]
  split
  · have hkeys : (d.map (fun q => if q.1 == name then (q.1, q.2 + 1) else q)).map Prod.fst
        = d.map Prod.fst := by
      rw [List.map_map]
      refine List.map_congr_left ?_
      intro q _
      by_cases hq : q.1 = name <;> simp [hq]
    rw [hkeys]
    exact hnd
  · rename_i hany
    have hnot : name ∉ d.map Prod.fst := by
      intro hmem
      rcases List.mem_map.mp hmem with ⟨q, hq, hq1⟩
      exact hany (List.any_eq_true.mpr ⟨q, hq, by simp [hq1]⟩)
    rw [List.map_append]
    simp only [List.map_cons, List.map_nil]
    rw [List.nodup_append]
    exact ⟨hnd, List.nodup_singleton _, by simpa [List.disjoint_singleton] using hnot⟩

theorem getD_set_eq {α : Type} (l : List α) (i : ℕ) (a d : α) (h : i < l.length) :
    (l.set i a).getD i d = a := by
  simp [List.getD_eq_getElem?_getD, List.getElem?_set_self h]

theorem getD_set_ne {α : Type} (l : List α) (i j : ℕ) (a d : α) (h : i ≠ j) :
    (l.set i a).getD j d = l.getD j d := by
  simp [List.getD_eq_getElem?_getD, List.getElem?_set_ne h]

theorem getD_replicate {α : Type} (n i : ℕ) (a d : α) :
    (List.replicate n a).getD i d = if i < n then a else d := by
  rw [List.getD_eq_getElem?_getD, List.getElem?_replicate]
  split <;> rfl

/-- Correctness data for one row `w` of the dynamic-programming tables:
the recorded selection has distinct keys naming actual items, costs at
most `w`, and calories exactly `dp[w]`. -/
def RowOk (items : Items) (st : List ℕ × List Selection) (w : ℕ) : Prop :=
  ((st.2.getD w []).map Prod.fst).Nodup ∧
  (∀ p ∈ st.2.getD w [], p.1 ∈ items.map Prod.fst) ∧
  (calculate_totals items (st.2.getD w [])).1 ≤ w ∧
  (calculate_totals items (st.2.getD w [])).2 = st.1.getD w 0

/-- The Bellman inequality for row `w`: no single item extension of an
earlier row beats `dp[w]`. -/
def RowRelaxed (items : Items) (st : List ℕ × List Selection) (w : ℕ) : Prop :=
  ∀ p ∈ items, p.2.cost ≤ w →
    st.1.getD (w - p.2.cost) 0 + p.2.calories ≤ st.1.getD w 0

theorem dpStep_fold_inv (items : Items) (hnd : (items.map Prod.fst).Nodup)
    (hpos : ∀ p ∈ items, 0 < p.2.cost) (budget k : ℕ) (hk : k + 1 ≤ budget) :
    ∀ (pending : List (String × FoodInfo)) (st : List ℕ × List Selection),
    (∀ p ∈ pending, p ∈ items) →
    st.1.length = budget + 1 →
    st.2.length = budget + 1 →
    (∀ w, k + 1 < w → st.1.getD w 0 = 0 ∧ st.2.getD w [] = []) →
    (∀ w, w ≤ k → RowOk items st w ∧ RowRelaxed items st w) →
    RowOk items st (k + 1) →
    (∀ q ∈ items, q ∉ pending → q.2.cost ≤ k + 1 →
        st.1.getD (k + 1 - q.2.cost) 0 + q.2.calories ≤ st.1.getD (k + 1) 0) →
    (pending.foldl (dpStep (k + 1)) st).1.length = budget + 1 ∧
    (pending.foldl (dpStep (k + 1)) st).2.length = budget + 1 ∧
    (∀ w, k + 1 < w → (pending.foldl (dpStep (k + 1)) st).1.getD w 0 = 0 ∧
        (pending.foldl (dpStep (k + 1)) st).2.getD w [] = []) ∧
    (∀ w, w ≤ k → RowOk items (pending.foldl (dpStep (k + 1)) st) w ∧
        RowRelaxed items (pending.foldl (dpStep (k + 1)) st) w) ∧
    RowOk items (pending.foldl (dpStep (k + 1)) st) (k + 1) ∧
    (∀ q ∈ items, q.2.cost ≤ k + 1 →
        (pending.foldl (dpStep (k + 1)) st).1.getD (k + 1 - q.2.cost) 0 + q.2.calories
          ≤ (pending.foldl (dpStep (k + 1)) st).1.getD (k + 1) 0) := by
  intro pending
  induction pending with
  | nil =>
    intro st _ h1 h2 h3 h4 h5 h6
    exact ⟨h1, h2, h3, h4, h5, fun q hq hc => h6 q hq (by simp) hc⟩
  | cons p rest ih =>
    intro st hsub h1 h2 h3 h4 h5 h6
    have hp : p ∈ items := hsub p (List.mem_cons_self _ _)
    have hrest : ∀ q ∈ rest, q ∈ items := fun q hq => hsub q (List.mem_cons_of_mem _ hq)
    rw [List.foldl_cons]
    by_cases hc : p.2.cost ≤ k + 1
    · by_cases himp : st.1.getD (k + 1) 0 < st.1.getD (k + 1 - p.2.cost) 0 + p.2.calories
      · -- the improving update
        have hstep : dpStep (k + 1) st p =
            (st.1.set (k + 1) (st.1.getD (k + 1 - p.2.cost) 0 + p.2.calories),
             st.2.set (k + 1) (dictIncr (st.2.getD (k + 1 - p.2.cost) []) p.1)) := by
          rw [dpStep, if_pos hc, if_pos himp]
        have hcp : 0 < p.2.cost := hpos p hp
        have hw' : k + 1 - p.2.cost ≤ k := by omega
        have hlen1 : (dpStep (k + 1) st p).1.length = budget + 1 := by
          rw [hstep]; simpa using h1
        have hlen2 : (dpStep (k + 1) st p).2.length = budget + 1 := by
          rw [hstep]; simpa using h2
        have hget1_ne : ∀ w, w ≠ k + 1 →
            (dpStep (k + 1) st p).1.getD w 0 = st.1.getD w 0 := by
          intro w hw
          rw [hstep]
          exact getD_set_ne _ _ _ _ _ (fun h => hw h.symm)
        have hget2_ne : ∀ w, w ≠ k + 1 →
            (dpStep (k + 1) st p).2.getD w [] = st.2.getD w [] := by
          intro w hw
          rw [hstep]
          exact getD_set_ne _ _ _ _ _ (fun h => hw h.symm)
        have hget1_eq : (dpStep (k + 1) st p).1.getD (k + 1) 0
            = st.1.getD (k + 1 - p.2.cost) 0 + p.2.calories := by
          rw [hstep]
          exact getD_set_eq _ _ _ _ (by omega)
        have hget2_eq : (dpStep (k + 1) st p).2.getD (k + 1) []
            = dictIncr (st.2.getD (k + 1 - p.2.cost) []) p.1 := by
          rw [hstep]
          exact getD_set_eq _ _ _ _ (by omega)
        have hrowW : RowOk items st (k + 1 - p.2.cost) ∧
            RowRelaxed items st (k + 1 - p.2.cost) := h4 _ hw'
        have hlook : lookupInfo items p.1 = p.2 := lookupInfo_of_mem hnd hp
        refine ih (dpStep (k + 1) st p) hrest hlen1 hlen2 ?_ ?_ ?_ ?_
        · intro w hw
          rw [hget1_ne w (by omega), hget2_ne w (by omega)]
          exact h3 w hw
        · intro w hw
          have e1 := hget1_ne w (by omega)
          have e2 := hget2_ne w (by omega)
          constructor
          · rcases (h4 w hw).1 with ⟨a, b, c, d⟩
            exact ⟨by rw [e2]; exact a, by rw [e2]; exact b, by rw [e2]; exact c,
              by rw [e2, e1]; exact d⟩
          · intro q hq hqc
            have eq1 := hget1_ne (w - q.2.cost) (by omega)
            rw [eq1, e1]
            exact (h4 w hw).2 q hq hqc
        · -- RowOk at k + 1 after the update
          rcases hrowW.1 with ⟨ha, hb, hcost, hcal⟩
          have htot := dictIncr_totals items (st.2.getD (k + 1 - p.2.cost) []) ha p.1
          refine ⟨?_, ?_, ?_, ?_⟩
          · rw [hget2_eq]
            exact dictIncr_fst_nodup ha
          · intro q hq
            rw [hget2_eq] at hq
            rcases dictIncr_fst_of_mem (List.mem_map_of_mem Prod.fst hq) with hm | hm
            · rcases List.mem_map.mp hm with ⟨r, hr, hr1⟩
              exact hr1 ▸ hb r hr
            · exact hm ▸ List.mem_map_of_mem Prod.fst hp
          · rw [hget2_eq, htot, hlook]
            omega
          · rw [hget2_eq, htot, hlook, hget1_eq, hcal]
        · -- partial relaxation
          intro q hq hqrest hqc
          have hne : q.2.cost ≥ 1 := hpos q hq
          have eqL := hget1_ne (k + 1 - q.2.cost) (by omega)
          rw [eqL, hget1_eq]
          by_cases hqp : q = p
          · subst hqp
            exact le_refl _
          · have : q ∉ p :: rest := by
              intro hmem
              rcases List.mem_cons.mp hmem with h | h
              · exact hqp h
              · exact hqrest h
            have := h6 q hq this hqc
            omega
      · -- item fits but does not improve
        have hstep : dpStep (k + 1) st p = st := by
          rw [dpStep, if_pos hc, if_neg himp]
        rw [hstep]
        refine ih st hrest h1 h2 h3 h4 h5 ?_
        intro q hq hqrest hqc
        by_cases hqp : q = p
        · subst hqp
          omega
        · refine h6 q hq ?_ hqc
          intro hmem
          rcases List.mem_cons.mp hmem with h | h
          · exact hqp h
          · exact hqrest h
    · -- item does not fit
      have hstep : dpStep (k + 1) st p = st := by
        rw [dpStep, if_neg hc]
      rw [hstep]
      refine ih st hrest h1 h2 h3 h4 h5 ?_
      intro q hq hqrest hqc
      by_cases hqp : q = p
      · subst hqp
        exact absurd hqc hc
      · refine h6 q hq ?_ hqc
        intro hmem
        rcases List.mem_cons.mp hmem with h | h
        · exact hqp h
        · exact hqrest h

theorem calculate_totals_nil (items : Items) : calculate_totals items [] = (0, 0) := rfl

theorem dpTables_inv (items : Items) (hg : GoodItems items) (budget : ℕ) :
    (dpTables items budget).1.length = budget + 1 ∧
    (dpTables items budget).2.length = budget + 1 ∧
    (∀ w, w ≤ budget →
      RowOk items (dpTables items budget) w ∧ RowRelaxed items (dpTables items budget) w) := by
  obtain ⟨hnd, hpos⟩ := hg
  have H : ∀ k, k ≤ budget →
      ((List.range' 1 k).foldl (fun st w => dpInner items w st)
        (List.replicate (budget + 1) 0, List.replicate (budget + 1) [])).1.length
          = budget + 1 ∧
      ((List.range' 1 k).foldl (fun st w => dpInner items w st)
        (List.replicate (budget + 1) 0, List.replicate (budget + 1) [])).2.length
          = budget + 1 ∧
      (∀ w, k < w →
        ((List.range' 1 k).foldl (fun st w => dpInner items w st)
          (List.replicate (budget + 1) 0, List.replicate (budget + 1) [])).1.getD w 0 = 0 ∧
        ((List.range' 1 k).foldl (fun st w => dpInner items w st)
          (List.replicate (budget + 1) 0, List.replicate (budget + 1) [])).2.getD w [] = []) ∧
      (∀ w, w ≤ k →
        RowOk items ((List.range' 1 k).foldl (fun st w => dpInner items w st)
          (List.replicate (budget + 1) 0, List.replicate (budget + 1) [])) w ∧
        RowRelaxed items ((List.range' 1 k).foldl (fun st w => dpInner items w st)
          (List.replicate (budget + 1) 0, List.replicate (budget + 1) [])) w) := by
    intro k
    induction k with
    | zero =>
      intro _
      refine ⟨by simp, by simp, ?_, ?_⟩
      · intro w hw
        constructor <;> · rw [List.range'_zero, List.foldl_nil, getD_replicate]; split <;> rfl
      · intro w hw
        have hw0 : w = 0 := Nat.le_zero.mp hw
        subst hw0
        rw [List.range'_zero, List.foldl_nil]
        constructor
        · refine ⟨?_, ?_, ?_, ?_⟩ <;>
            rw [getD_replicate, if_pos (by omega)]
          · simp
          · simp
          · simp [calculate_totals_nil]
          · rw [getD_replicate, if_pos (by omega)]
            simp [calculate_totals_nil]
        · intro q hq hqc
          have := hpos q hq
          omega
    | succ k ihk =>
      intro hk1
      have hk : k ≤ budget := by omega
      obtain ⟨H1, H2, H3, H4⟩ := ihk hk
      have hconcat : List.range' 1 (k + 1) = List.range' 1 k ++ [1 + 1 * k] :=
        List.range'_concat 1 k
      rw [hconcat, List.foldl_append, List.foldl_cons, List.foldl_nil]
      have hidx : 1 + 1 * k = k + 1 := by omega
      rw [hidx, dpInner]
      have hrow : RowOk items ((List.range' 1 k).foldl (fun st w => dpInner items w st)
          (List.replicate (budget + 1) 0, List.replicate (budget + 1) [])) (k + 1) := by
        obtain ⟨hz1, hz2⟩ := H3 (k + 1) (by omega)
        refine ⟨?_, ?_, ?_, ?_⟩ <;> rw [hz2]
        · simp
        · simp
        · simp [calculate_totals_nil]
        · rw [hz1]
          simp [calculate_totals_nil]
      obtain ⟨G1, G2, G3, G4, G5, G6⟩ :=
        dpStep_fold_inv items hnd hpos budget k hk1 items
          ((List.range' 1 k).foldl (fun st w => dpInner items w st)
            (List.replicate (budget + 1) 0, List.replicate (budget + 1) []))
          (fun p hp => hp) H1 H2
          (fun w hw => H3 w (by omega)) H4 hrow
          (fun q hq hq2 _ => absurd hq hq2)
      refine ⟨G1, G2, ?_, ?_⟩
      · intro w hw
        exact G3 w hw
      · intro w hw
        rcases Nat.lt_or_ge w (k + 1) with hlt | hge
        · exact G4 w (by omega)
        · have hw2 : w = k + 1 := by omega
          subst hw2
          exact ⟨G5, G6⟩
  have := H budget le_rfl
  rw [dpTables]
  exact ⟨this.1, this.2.1, this.2.2.2⟩

theorem totals_of_all_zero (items : Items) {sel : Selection}
    (h : ∀ p ∈ sel, p.2 = 0) : calculate_totals items sel = (0, 0) := by
  rw [calculate_totals_eq]
  have h1 : ∀ x ∈ sel.map (fun p => (lookupInfo items p.1).cost * p.2), x = 0 := by
    intro x hx
    rcases List.mem_map.mp hx with ⟨p, hp, rfl⟩
    rw [h p hp, Nat.mul_zero]
  have h2 : ∀ x ∈ sel.map (fun p => (lookupInfo items p.1).calories * p.2), x = 0 := by
    intro x hx
    rcases List.mem_map.mp hx with ⟨p, hp, rfl⟩
    rw [h p hp, Nat.mul_zero]
  rw [List.sum_eq_zero h1, List.sum_eq_zero h2]

theorem dp_upper_bound (items : Items) (hg : GoodItems items) (budget : ℕ) :
    ∀ (n : ℕ) (sel : Selection) (w : ℕ), w ≤ budget →
    (sel.map Prod.snd).sum = n →
    (∀ p ∈ sel, p.1 ∈ items.map Prod.fst) →
    (calculate_totals items sel).1 ≤ w →
    (calculate_totals items sel).2 ≤ (dpTables items budget).1.getD w 0 := by
  intro n
  induction n using Nat.strong_induction_on with
  | _ n ihn =>
    intro sel w hw hsum hkeys hcost
    by_cases h0 : ∀ p ∈ sel, p.2 = 0
    · rw [totals_of_all_zero items h0]
      exact Nat.zero_le _
    · push_neg at h0
      obtain ⟨p, hp, hp2⟩ := h0
      obtain ⟨s1, s2, rfl⟩ := List.append_of_mem hp
      obtain ⟨q0, hq0, hq01⟩ := List.mem_map.mp (hkeys p hp)
      have hnd := hg.1
      have hlook : lookupInfo items p.1 = q0.2 := by
        rw [← hq01]
        exact lookupInfo_of_mem hnd hq0
      have hcp : 0 < q0.2.cost := hg.2 q0 hq0
      -- totals of the decomposed selection
      have htot : calculate_totals items (s1 ++ p :: s2)
          = ((calculate_totals items s1).1 + (lookupInfo items p.1).cost * p.2
              + (calculate_totals items s2).1,
             (calculate_totals items s1).2 + (lookupInfo items p.1).calories * p.2
              + (calculate_totals items s2).2) := by
        rw [calculate_totals_append, calculate_totals_cons]
        simp only [Prod.mk.injEq]
        constructor <;> omega
      have htot1 : (calculate_totals items (s1 ++ p :: s2)).1
          = (calculate_totals items s1).1 + (lookupInfo items p.1).cost * p.2
            + (calculate_totals items s2).1 := by rw [htot]
      have htot2 : (calculate_totals items (s1 ++ p :: s2)).2
          = (calculate_totals items s1).2 + (lookupInfo items p.1).calories * p.2
            + (calculate_totals items s2).2 := by rw [htot]
      set sel' : Selection := s1 ++ (p.1, p.2 - 1) :: s2 with hsel'
      have htot' : calculate_totals items sel'
          = ((calculate_totals items s1).1 + (lookupInfo items p.1).cost * (p.2 - 1)
              + (calculate_totals items s2).1,
             (calculate_totals items s1).2 + (lookupInfo items p.1).calories * (p.2 - 1)
              + (calculate_totals items s2).2) := by
        rw [hsel', calculate_totals_append, calculate_totals_cons]
        simp only [Prod.mk.injEq]
        constructor <;> omega
      have htot'1 : (calculate_totals items sel').1
          = (calculate_totals items s1).1 + (lookupInfo items p.1).cost * (p.2 - 1)
            + (calculate_totals items s2).1 := by rw [htot']
      have htot'2 : (calculate_totals items sel').2
          = (calculate_totals items s1).2 + (lookupInfo items p.1).calories * (p.2 - 1)
            + (calculate_totals items s2).2 := by rw [htot']
      have hp2pos : 0 < p.2 := Nat.pos_of_ne_zero hp2
      have hmul : ∀ m : ℕ, m * p.2 = m * (p.2 - 1) + m := by
        intro m
        cases p2 : p.2 with
        | zero => rw [p2] at hp2pos; omega
        | succ t => simp [Nat.mul_succ]
      have hcw : q0.2.cost ≤ w := by
        have h1 : (lookupInfo items p.1).cost * p.2
            ≤ (calculate_totals items (s1 ++ p :: s2)).1 := by
          rw [htot1]; omega
        have h2 : q0.2.cost ≤ q0.2.cost * p.2 := Nat.le_mul_of_pos_right _ hp2pos
        rw [hlook] at h1
        omega
      have e1 : ((s1 ++ p :: s2).map Prod.snd).sum
          = (s1.map Prod.snd).sum + p.2 + (s2.map Prod.snd).sum := by
        simp [List.sum_append]
        omega
      have hsum' : (sel'.map Prod.snd).sum = n - 1 := by
        have e2 : (sel'.map Prod.snd).sum
            = (s1.map Prod.snd).sum + (p.2 - 1) + (s2.map Prod.snd).sum := by
          rw [hsel']
          simp [List.sum_append]
          omega
        omega
      have hkeys' : ∀ r ∈ sel', r.1 ∈ items.map Prod.fst := by
        intro r hr
        rw [hsel'] at hr
        rcases List.mem_append.mp hr with h | h
        · exact hkeys r (List.mem_append.mpr (Or.inl h))
        · rcases List.mem_cons.mp h with rfl | h
          · exact hkeys p hp
          · exact hkeys r (List.mem_append.mpr (Or.inr (List.mem_cons_of_mem _ h)))
      have hcost' : (calculate_totals items sel').1 ≤ w - q0.2.cost := by
        have h1 := hcost
        rw [htot1, hlook] at h1
        have h2 := htot'1
        rw [hlook] at h2
        have h3 := hmul q0.2.cost
        omega
      have hn1 : n - 1 < n := by omega
      have hwc : w - q0.2.cost ≤ budget := le_trans (Nat.sub_le _ _) hw
      have hcal' := ihn (n - 1) hn1 sel' (w - q0.2.cost) hwc hsum' hkeys' hcost'
      have hrelax := ((dpTables_inv items hg budget).2.2 w hw).2 q0 hq0 hcw
      have hcal : (calculate_totals items (s1 ++ p :: s2)).2
          = (calculate_totals items sel').2 + q0.2.calories := by
        have h2 := htot'2
        rw [hlook] at h2
        have h3 := hmul q0.2.calories
        rw [htot2, hlook]
        omega
      rw [hcal]
      omega

theorem greedy_go (items : Items) :
    ∀ (l : List (String × ℚ)) (sel0 : Selection) (rem0 : ℕ),
    (∀ p ∈ l, p.1 ∈ items.map Prod.fst) →
    (∀ p ∈ sel0, p.1 ∈ items.map Prod.fst) →
    (∀ p ∈ (l.foldl
        (fun st p =>
          let cost := (lookupInfo items p.1).cost
          let quantity := st.2 / cost
          if 0 < quantity then (st.1 ++ [(p.1, quantity)], st.2 - quantity * cost)
          else st)
        (sel0, rem0)).1, p.1 ∈ items.map Prod.fst) ∧
    (calculate_totals items (l.foldl
        (fun st p =>
          let cost := (lookupInfo items p.1).cost
          let quantity := st.2 / cost
          if 0 < quantity then (st.1 ++ [(p.1, quantity)], st.2 - quantity * cost)
          else st)
        (sel0, rem0)).1).1
      + (l.foldl
        (fun st p =>
          let cost := (lookupInfo items p.1).cost
          let quantity := st.2 / cost
          if 0 < quantity then (st.1 ++ [(p.1, quantity)], st.2 - quantity * cost)
          else st)
        (sel0, rem0)).2
      = (calculate_totals items sel0).1 + rem0
  | [], sel0, rem0 => by
    intro _ hsel
    exact ⟨hsel, rfl⟩
  | p :: rest, sel0, rem0 => by
    intro hl hsel
    rw [List.foldl_cons]
    simp only
    split
    · rename_i hq
      have hdiv : rem0 / (lookupInfo items p.1).cost * (lookupInfo items p.1).cost ≤ rem0 :=
        Nat.div_mul_le_self _ _
      have hsel1 : ∀ r ∈ sel0 ++ [(p.1, rem0 / (lookupInfo items p.1).cost)],
          r.1 ∈ items.map Prod.fst := by
        intro r hr
        rcases List.mem_append.mp hr with h | h
        · exact hsel r h
        · rw [List.mem_singleton.mp h]
          exact hl p (List.mem_cons_self _ _)
      have ih := greedy_go items rest
        (sel0 ++ [(p.1, rem0 / (lookupInfo items p.1).cost)])
        (rem0 - rem0 / (lookupInfo items p.1).cost * (lookupInfo items p.1).cost)
        (fun r hr => hl r (List.mem_cons_of_mem _ hr)) hsel1
      refine ⟨ih.1, ?_⟩
      have happ : (calculate_totals items
            (sel0 ++ [(p.1, rem0 / (lookupInfo items p.1).cost)])).1
          = (calculate_totals items sel0).1
            + (lookupInfo items p.1).cost * (rem0 / (lookupInfo items p.1).cost) := by
        rw [calculate_totals_append, calculate_totals_cons, calculate_totals_nil]
        simp
      have hcomm : (lookupInfo items p.1).cost * (rem0 / (lookupInfo items p.1).cost)
          = rem0 / (lookupInfo items p.1).cost * (lookupInfo items p.1).cost :=
        Nat.mul_comm _ _
      rw [ih.2, happ]
      omega
    · exact greedy_go items rest sel0 rem0
        (fun r hr => hl r (List.mem_cons_of_mem _ hr)) hsel

theorem greedy_feasible (items : Items) (budget : ℕ) :
    (∀ p ∈ greedy_algorithm items budget, p.1 ∈ items.map Prod.fst) ∧
    (calculate_totals items (greedy_algorithm items budget)).1 ≤ budget := by
  rw [greedy_algorithm]
  have hmem : ∀ p ∈ (items.map
      (fun p => (p.1, (p.2.calories : ℚ) / (p.2.cost : ℚ)))).mergeSort
        (fun a b => decide (b.2 ≤ a.2)), p.1 ∈ items.map Prod.fst := by
    intro p hp
    have hp2 := (List.mergeSort_perm _ _).mem_iff.mp hp
    rcases List.mem_map.mp hp2 with ⟨q, hq, rfl⟩
    exact List.mem_map_of_mem Prod.fst hq
  have h := greedy_go items ((items.map
      (fun p => (p.1, (p.2.calories : ℚ) / (p.2.cost : ℚ)))).mergeSort
        (fun a b => decide (b.2 ≤ a.2))) [] budget hmem (by simp)
  refine ⟨h.1, ?_⟩
  have h2 := h.2
  rw [calculate_totals_nil] at h2
  omega

/-- C6: on items with distinct names and positive integer costs,
`dynamic_programming` returns a selection of those items whose total cost
is at most the budget and whose total calories are the unbounded-knapsack
optimum: at least the total calories of every selection of the items
whose total cost fits the budget. -/
theorem dynamic_programming_optimal (items : Items) (budget : ℕ) (hg : GoodItems items) :
    (∀ p ∈ dynamic_programming items budget, p.1 ∈ items.map Prod.fst) ∧
    (calculate_totals items (dynamic_programming items budget)).1 ≤ budget ∧
    (∀ sel : Selection, (∀ p ∈ sel, p.1 ∈ items.map Prod.fst) →
      (calculate_totals items sel).1 ≤ budget →
      (calculate_totals items sel).2
        ≤ (calculate_totals items (dynamic_programming items budget)).2) := by
  obtain ⟨hrow, hrelax⟩ := (dpTables_inv items hg budget).2.2 budget le_rfl
  obtain ⟨ha, hb, hc, hd⟩ := hrow
  refine ⟨hb, hc, ?_⟩
  intro sel hkeys hcost
  have hub := dp_upper_bound items hg budget (sel.map Prod.snd).sum sel budget le_rfl rfl
    hkeys hcost
  show (calculate_totals items sel).2
    ≤ (calculate_totals items ((dpTables items budget).2.getD budget [])).2
  rw [hd]
  exact hub

/-- The food dict of task6.py (`items` at module level). -/
def menuItems : Items :=
  [("pizza", ⟨50, 300⟩), ("hamburger", ⟨40, 250⟩), ("hot-dog", ⟨30, 200⟩),
   ("pepsi", ⟨10, 100⟩), ("cola", ⟨15, 220⟩), ("potato", ⟨25, 350⟩)]

/-- Witness for C6 at the module-level menu of task6.py and budget 50. -/
theorem dynamic_programming_optimal_witness :
    GoodItems menuItems ∧
    ((∀ p ∈ dynamic_programming menuItems 50, p.1 ∈ menuItems.map Prod.fst) ∧
     (calculate_totals menuItems (dynamic_programming menuItems 50)).1 ≤ 50 ∧
     (∀ sel : Selection, (∀ p ∈ sel, p.1 ∈ menuItems.map Prod.fst) →
       (calculate_totals menuItems sel).1 ≤ 50 →
       (calculate_totals menuItems sel).2
         ≤ (calculate_totals menuItems (dynamic_programming menuItems 50)).2)) :=
  ⟨by decide, dynamic_programming_optimal menuItems 50 (by decide)⟩

/-- C7: on items with distinct names and positive integer costs, the
greedy selection costs at most the budget, and the dynamic-programming
selection's calories are at least the greedy selection's calories. -/
theorem greedy_le_dynamic_programming (items : Items) (budget : ℕ) (hg : GoodItems items) :
    (calculate_totals items (greedy_algorithm items budget)).1 ≤ budget ∧
    (calculate_totals items (greedy_algorithm items budget)).2
      ≤ (calculate_totals items (dynamic_programming items budget)).2 := by
  obtain ⟨hkeys, hcost⟩ := greedy_feasible items budget
  obtain ⟨hrow, hrelax⟩ := (dpTables_inv items hg budget).2.2 budget le_rfl
  obtain ⟨ha, hb, hc, hd⟩ := hrow
  refine ⟨hcost, ?_⟩
  have hub := dp_upper_bound items hg budget
    ((greedy_algorithm items budget).map Prod.snd).sum (greedy_algorithm items budget)
    budget le_rfl rfl hkeys hcost
  show (calculate_totals items (greedy_algorithm items budget)).2
    ≤ (calculate_totals items ((dpTables items budget).2.getD budget [])).2
  rw [hd]
  exact hub

/-- Witness for C7 at the module-level menu of task6.py and budget 100. -/
theorem greedy_le_dynamic_programming_witness :
    GoodItems menuItems ∧
    ((calculate_totals menuItems (greedy_algorithm menuItems 100)).1 ≤ 100 ∧
     (calculate_totals menuItems (greedy_algorithm menuItems 100)).2
       ≤ (calculate_totals menuItems (dynamic_programming menuItems 100)).2) :=
  ⟨by decide, greedy_le_dynamic_programming menuItems 100 (by decide)⟩

end Task6

/-! ## task3.py — Dijkstra shortest paths with a binary heap

Weights (`float` in Python) are modelled by exact rationals `ℚ` and
`float('inf')` by `⊤ : WithTop ℚ`.  The `heapq` binary heap of
`(distance, vertex)` tuples is modelled by the list of its entries
together with a pop operation that removes the lexicographically smallest
entry — the observable contract of a binary heap of tuples.  The
`visited` set is modelled by the list of vertices in insertion order
(only membership and insertion are used).  Raising `ValueError` is
modelled with `Except String`.
-/

namespace Task3

structure Edge where
  destination : ℕ
  weight : ℚ
deriving DecidableEq

/-- `Edge.__post_init__`: constructing an `Edge` raises `ValueError` on a
negative weight. -/
def Edge.mkChecked (destination : ℕ) (weight : ℚ) : Except String Edge :=
  if weight < 0 then Except.error "negative edge weight"
  else Except.ok ⟨destination, weight⟩

structure Graph where
  vertices : ℕ
  adjacency_list : ℕ → List Edge

/-- `Graph.get_neighbors`: the adjacency list of a vertex (an absent key
and an empty list are both the empty list in the model). -/
def Graph.get_neighbors (g : Graph) (vertex : ℕ) : List Edge :=
  g.adjacency_list vertex

/-- `Graph.add_edge`: range-check both endpoints, construct the edge
(which checks the weight), and append it to `adjacency_list[source]`. -/
def Graph.add_edge (g : Graph) (source destination : ℕ) (weight : ℚ) :
    Except String Graph :=
  if ¬(source < g.vertices ∧ destination < g.vertices) then
    Except.error "vertex out of range"
  else
    match Edge.mkChecked destination weight with
    | Except.error e => Except.error e
    | Except.ok edge =>
        Except.ok ⟨g.vertices, fun v =>
          if v = source then g.adjacency_list v ++ [edge] else g.adjacency_list v⟩

/-- All destinations stored in the graph are in range (what `add_edge`
guarantees for graphs built through it). -/
def Graph.WF (g : Graph) : Prop :=
  ∀ v, ∀ e ∈ g.adjacency_list v, e.destination < g.vertices

/-- All stored weights are non-negative (what `Edge.__post_init__`
guarantees). -/
def Graph.Nonneg (g : Graph) : Prop :=
  ∀ v, ∀ e ∈ g.adjacency_list v, 0 ≤ e.weight

/-- Lexicographic order on heap entries `(distance, vertex)`, exactly how
Python compares the tuples stored in the `heapq` heap. -/
def entryLe (a b : WithTop ℚ × ℕ) : Prop :=
  a.1 < b.1 ∨ (a.1 = b.1 ∧ a.2 ≤ b.2)

instance (a b : WithTop ℚ × ℕ) : Decidable (entryLe a b) := by
  unfold entryLe
  infer_instance

/-- `heapq.heappop` on the entry bag: remove and return the
lexicographically smallest entry. -/
def heapPop : List (WithTop ℚ × ℕ) →
    Option ((WithTop ℚ × ℕ) × List (WithTop ℚ × ℕ))
  | [] => none
  | e :: rest =>
    match heapPop rest with
    | none => some (e, [])
    | some (m, rest2) => if entryLe e m then some (e, rest) else some (m, e :: rest2)

theorem entryLe_total (a b : WithTop ℚ × ℕ) : entryLe a b ∨ entryLe b a := by
  unfold entryLe
  rcases lt_trichotomy a.1 b.1 with h | h | h
  · exact Or.inl (Or.inl h)
  · rcases le_total a.2 b.2 with h2 | h2
    · exact Or.inl (Or.inr ⟨h, h2⟩)
    · exact Or.inr (Or.inr ⟨h.symm, h2⟩)
  · exact Or.inr (Or.inl h)

theorem entryLe_key_le {a b : WithTop ℚ × ℕ} (h : entryLe a b) : a.1 ≤ b.1 := by
  rcases h with h | ⟨h, _⟩
  · exact le_of_lt h
  · exact le_of_eq h

theorem heapPop_eq_none_iff (l : List (WithTop ℚ × ℕ)) :
    heapPop l = none ↔ l = [] := by
  cases l with
  | nil => simp [heapPop]
  | cons e rest =>
    rw [heapPop]
    constructor
    · intro h
      rcases h2 : heapPop rest with _ | m
      · rw [h2] at h; cases h
      · rw [h2] at h
        rcases m with ⟨m1, rest2⟩
        by_cases hle : entryLe e m1 <;> simp [hle] at h
    · intro h; cases h

theorem heapPop_spec : ∀ (l : List (WithTop ℚ × ℕ)) (e : WithTop ℚ × ℕ)
    (rest : List (WithTop ℚ × ℕ)), heapPop l = some (e, rest) →
    l.Perm (e :: rest) ∧ (∀ x ∈ rest, e.1 ≤ x.1)
  | [], e, rest => by intro h; cases h
  | a :: l, e, rest => by
    intro h
    rw [heapPop] at h
    rcases h2 : heapPop l with _ | m
    · rw [h2] at h
      have hl : l = [] := (heapPop_eq_none_iff l).mp h2
      subst hl
      have h3 : some (a, ([] : List (WithTop ℚ × ℕ))) = some (e, rest) := h
      have h4 := Option.some.inj h3
      injection h4 with ha hb
      subst ha
      subst hb
      exact ⟨List.Perm.refl _, by intro x hx; cases hx⟩
    · rcases m with ⟨m1, rest2⟩
      have ih := heapPop_spec l m1 rest2 h2
      rw [h2] at h
      have h3 : (if entryLe a m1 then some (a, l) else some (m1, a :: rest2))
          = some (e, rest) := h
      by_cases hle : entryLe a m1
      · rw [if_pos hle] at h3
        have h4 := Option.some.inj h3
        injection h4 with ha hb
        subst ha
        subst hb
        refine ⟨List.Perm.refl _, ?_⟩
        intro x hx
        have hx2 := ih.1.mem_iff.mp hx
        rcases List.mem_cons.mp hx2 with rfl | hx2
        · exact entryLe_key_le hle
        · exact le_trans (entryLe_key_le hle) (ih.2 x hx2)
      · rw [if_neg hle] at h3
        have h4 := Option.some.inj h3
        injection h4 with ha hb
        subst ha
        subst hb
        have hma : entryLe m1 a := (entryLe_total a m1).resolve_left hle
        constructor
        · refine ((ih.1).cons a).trans ?_
          exact List.Perm.swap _ _ _
        · intro x hx
          rcases List.mem_cons.mp hx with rfl | hx
          · exact entryLe_key_le hma
          · exact ih.2 x hx

/-- The mutable state of the `while min_heap:` loop of
`find_shortest_paths`. -/
structure DState where
  dist : ℕ → WithTop ℚ
  pred : ℕ → Option ℕ
  heap : List (WithTop ℚ × ℕ)
  visited : List ℕ

/-- One iteration of the neighbor loop: skip visited neighbors, otherwise
relax `distances[neighbor]` through the current vertex and push the new
entry. -/
def relaxEdge (u : ℕ) (st : DState) (e : Edge) : DState :=
  if e.destination ∈ st.visited then st
  else if st.dist u + (e.weight : WithTop ℚ) < st.dist e.destination then
    { st with
      dist := Function.update st.dist e.destination (st.dist u + (e.weight : WithTop ℚ)),
      pred := Function.update st.pred e.destination (some u),
      heap := (st.dist u + (e.weight : WithTop ℚ), e.destination) :: st.heap }
  else st

/-- The body of one main-loop iteration after a successful pop of
`(d, u)`: skip it if `u` is already visited; mark `u` visited; skip
relaxation if the stored key is stale (`current_distance >
distances[current_vertex]`); otherwise relax all outgoing edges. -/
def popStep (g : Graph) (st : DState) (d : WithTop ℚ) (u : ℕ)
    (rest : List (WithTop ℚ × ℕ)) : DState :=
  if u ∈ st.visited then { st with heap := rest }
  else if st.dist u < d then { st with heap := rest, visited := st.visited ++ [u] }
  else (g.get_neighbors u).foldl (relaxEdge u)
    { st with heap := rest, visited := st.visited ++ [u] }

/-- One iteration of the main `while min_heap:` loop: pop the smallest
entry and run the loop body (the identity when the heap is empty, i.e.
when the loop has exited). -/
def oneStep (g : Graph) (st : DState) : DState :=
  match heapPop st.heap with
  | none => st
  | some ((d, u), rest) => popStep g st d u rest

/-- The `while min_heap:` loop with explicit fuel (each iteration pops one
entry, so total insertions bound the iteration count). -/
def dijkstraLoop (g : Graph) : ℕ → DState → DState
  | 0, st => st
  | fuel + 1, st =>
    match heapPop st.heap with
    | none => st
    | some _ => dijkstraLoop g fuel (oneStep g st)

/-- Total number of stored edges: an upper bound (plus one) on heap
insertions. -/
def totalOut (g : Graph) : ℕ :=
  ((List.range g.vertices).map (fun v => (g.adjacency_list v).length)).sum

/-- The state before the loop: `distances` all infinite except
`distances[source] = 0`, no predecessors, the heap `[(0, source)]`, no
visited vertices. -/
def initState (g : Graph) (source : ℕ) : DState :=
  { dist := fun v => if v = source then (0 : WithTop ℚ) else ⊤,
    pred := fun _ => none,
    heap := [((0 : WithTop ℚ), source)],
    visited := [] }

/-- `DijkstraResult`: `distances` and `predecessors` are dicts with keys
`range(vertices)`; a dict is modelled by its lookup function (`none` for
an absent key; `predecessors` is modelled by the flattened `dict.get`
view, the only way the code reads it). -/
structure DijkstraResult where
  distances : ℕ → Option (WithTop ℚ)
  predecessors : ℕ → Option ℕ
  source : ℕ

/-- The state after the `while min_heap:` loop (the fuel bounds the
number of pops; it is proved sufficient to drain the heap). -/
def finalState (g : Graph) (source : ℕ) : DState :=
  dijkstraLoop g (totalOut g + 1) (initState g source)

/-- `DijkstraAlgorithm.find_shortest_paths`: validate the source, run the
loop until the heap drains, and package the tables. -/
def find_shortest_paths (g : Graph) (source : ℕ) : Except String DijkstraResult :=
  if ¬ source < g.vertices then Except.error "source out of range"
  else
    Except.ok
      { distances := fun v =>
          if v < g.vertices then some ((finalState g source).dist v) else none,
        predecessors := fun v =>
          if v < g.vertices then (finalState g source).pred v else none,
        source := source }

/-- The `while current is not None:` loop of `get_path`, with fuel
(`none` = the loop would still be running): builds
`[destination, pred, pred-of-pred, ...]`. -/
def walk (pred : ℕ → Option ℕ) : ℕ → ℕ → Option (List ℕ)
  | 0, _ => none
  | fuel + 1, v =>
    match pred v with
    | none => some [v]
    | some u => (walk pred fuel u).map (fun path => v :: path)

/-- `DijkstraResult.get_path` with fuel for the predecessor walk: `none`
(inner) for an absent key or an infinite distance, otherwise the reversed
predecessor chain. -/
def DijkstraResult.get_path (r : DijkstraResult) (fuel destination : ℕ) :
    Option (Option (List ℕ)) :=
  match r.distances destination with
  | none => some none
  | some d =>
    if d = ⊤ then some none
    else (walk r.predecessors fuel destination).map (fun path => some path.reverse)

/-- `DijkstraResult.get_distance`: `distances.get(destination, inf)`. -/
def DijkstraResult.get_distance (r : DijkstraResult) (destination : ℕ) : WithTop ℚ :=
  (r.distances destination).getD ⊤

/-- Finite directed walks from `s`, with their total weight: `IsPath g s v c`
means some walk from `s` to `v` along stored edges has total weight `c`.
With non-negative weights the minimum over walks equals the minimum over
simple paths. -/
inductive IsPath (g : Graph) (s : ℕ) : ℕ → ℚ → Prop where
  | refl : IsPath g s s 0
  | tail {u : ℕ} {c : ℚ} (e : Edge) :
      IsPath g s u c → e ∈ g.adjacency_list u → IsPath g s e.destination (c + e.weight)

/-- A vertex list that follows stored edges, with its total weight. -/
inductive GWalk (g : Graph) : List ℕ → ℚ → Prop where
  | single (v : ℕ) : GWalk g [v] 0
  | cons {v : ℕ} {rest : List ℕ} {c : ℚ} (u : ℕ) (e : Edge) :
      e ∈ g.adjacency_list u → e.destination = v → GWalk g (v :: rest) c →
      GWalk g (u :: v :: rest) (e.weight + c)

/-- Position of the first occurrence of a vertex in the visited list
(specification helper: visit order). -/
def rankIn : List ℕ → ℕ → ℕ
  | [], _ => 0
  | b :: l, a => if b = a then 0 else rankIn l a + 1

theorem rankIn_append_of_mem {a x : ℕ} : ∀ {l : List ℕ}, a ∈ l →
    rankIn (l ++ [x]) a = rankIn l a := by
  intro l
  induction l with
  | nil => intro h; cases h
  | cons b l ih =>
    intro h
    by_cases hb : b = a
    · simp [rankIn, hb]
    · rcases List.mem_cons.mp h with rfl | h
      · exact absurd rfl hb
      · simp [rankIn, hb, ih h]

theorem rankIn_append_self {x : ℕ} : ∀ {l : List ℕ}, x ∉ l →
    rankIn (l ++ [x]) x = l.length := by
  intro l
  induction l with
  | nil => intro _; simp [rankIn]
  | cons b l ih =>
    intro h
    have hb : b ≠ x := fun hbx => h (hbx ▸ List.mem_cons_self _ _)
    have hx : x ∉ l := fun hx => h (List.mem_cons_of_mem _ hx)
    simp [rankIn, hb, ih hx]

theorem rankIn_lt_length {a : ℕ} : ∀ {l : List ℕ}, a ∈ l → rankIn l a < l.length := by
  intro l
  induction l with
  | nil => intro h; cases h
  | cons b l ih =>
    intro h
    by_cases hb : b = a
    · simp [rankIn, hb]
    · rcases List.mem_cons.mp h with rfl | h
      · exact absurd rfl hb
      · simp only [rankIn, hb, if_false, List.length_cons]
        exact Nat.succ_lt_succ (ih h)

theorem coe_weight_nonneg {w : ℚ} (h : 0 ≤ w) : (0 : WithTop ℚ) ≤ (w : WithTop ℚ) := by
  exact_mod_cast h

/-- The loop invariant of `find_shortest_paths`, over the whole mutable
state. -/
structure Inv (g : Graph) (s : ℕ) (st : DState) : Prop where
  k1 : ∀ d u, (d, u) ∈ st.heap → st.dist u ≤ d
  k2 : ∀ u, u ∉ st.visited → st.dist u ≠ ⊤ → (st.dist u, u) ∈ st.heap
  k3 : ∀ v ∈ st.visited, ∀ d u, (d, u) ∈ st.heap → st.dist v ≤ d
  tri : ∀ u ∈ st.visited, ∀ e ∈ g.adjacency_list u,
      st.dist e.destination ≤ st.dist u + (e.weight : WithTop ℚ)
  pathEx : ∀ v, st.dist v ≠ ⊤ → ∃ c : ℚ, IsPath g s v c ∧ st.dist v = (c : WithTop ℚ)
  src : st.dist s = 0
  predSrc : st.pred s = none
  predOk : ∀ v u, st.pred v = some u → u ∈ st.visited ∧ st.dist u ≠ ⊤ ∧
      ∃ e ∈ g.adjacency_list u, e.destination = v ∧
        st.dist v = st.dist u + (e.weight : WithTop ℚ)
  predFin : ∀ v, st.dist v ≠ ⊤ → v = s ∨ ∃ u, st.pred v = some u
  order : ∀ v ∈ st.visited, ∀ u, st.pred v = some u →
      rankIn st.visited u < rankIn st.visited v
  visFin : ∀ v ∈ st.visited, st.dist v ≠ ⊤
  heapFin : ∀ d u, (d, u) ∈ st.heap → d ≠ ⊤
  heapVert : ∀ d u, (d, u) ∈ st.heap → u < g.vertices
  visVert : ∀ v ∈ st.visited, v < g.vertices
  nodup : st.visited.Nodup
  nonneg : ∀ v, 0 ≤ st.dist v

theorem initState_inv (g : Graph) (s : ℕ) (hs : s < g.vertices) :
    Inv g s (initState g s) := by
  refine ⟨?_, ?_, ?_, ?_, ?_, ?_, ?_, ?_, ?_, ?_, ?_, ?_, ?_, ?_, ?_, ?_⟩
  · intro d u h
    rcases List.mem_singleton.mp h with h
    injection h with h1 h2
    subst h1
    subst h2
    simp [initState]
  · intro u _ hfin
    have hu : u = s := by
      by_contra hne
      exact hfin (by simp [initState, hne])
    subst hu
    simp [initState]
  · intro v hv; cases hv
  · intro u hu; cases hu
  · intro v hfin
    have hv : v = s := by
      by_contra hne
      exact hfin (by simp [initState, hne])
    subst hv
    refine ⟨0, IsPath.refl, ?_⟩
    simp [initState]
  · simp [initState]
  · simp [initState]
  · intro v u h
    simp [initState] at h
  · intro v hfin
    left
    by_contra hne
    exact hfin (by simp [initState, hne])
  · intro v hv; cases hv
  · intro v hv; cases hv
  · intro d u h
    rcases List.mem_singleton.mp h with h
    injection h with h1 h2
    subst h1
    simp
  · intro d u h
    rcases List.mem_singleton.mp h with h
    injection h with h1 h2
    subst h2
    exact hs
  · intro v hv; cases hv
  · simp [initState]
  · intro v
    by_cases hv : v = s <;> simp [initState, hv]

theorem relaxEdge_frozen (u : ℕ) (st : DState) (e : Edge) :
    (relaxEdge u st e).visited = st.visited ∧
    (∀ v ∈ st.visited, (relaxEdge u st e).dist v = st.dist v) ∧
    (∀ v ∈ st.visited, (relaxEdge u st e).pred v = st.pred v) ∧
    (∀ v, (relaxEdge u st e).dist v ≤ st.dist v) := by
  rw [relaxEdge]
  by_cases hmem : e.destination ∈ st.visited
  · rw [if_pos hmem]
    exact ⟨rfl, fun _ _ => rfl, fun _ _ => rfl, fun _ => le_refl _⟩
  · rw [if_neg hmem]
    by_cases himp : st.dist u + (e.weight : WithTop ℚ) < st.dist e.destination
    · rw [if_pos himp]
      refine ⟨rfl, ?_, ?_, ?_⟩
      · intro v hv
        have hne : v ≠ e.destination := by
          intro h
          rw [h] at hv
          exact hmem hv
        show Function.update st.dist e.destination
          (st.dist u + (e.weight : WithTop ℚ)) v = st.dist v
        exact Function.update_noteq hne _ _
      · intro v hv
        have hne : v ≠ e.destination := by
          intro h
          rw [h] at hv
          exact hmem hv
        show Function.update st.pred e.destination (some u) v = st.pred v
        exact Function.update_noteq hne _ _
      · intro v
        show Function.update st.dist e.destination
          (st.dist u + (e.weight : WithTop ℚ)) v ≤ st.dist v
        by_cases hv : v = e.destination
        · subst hv
          rw [Function.update_same]
          exact le_of_lt himp
        · rw [Function.update_noteq hv]
    · rw [if_neg himp]
      exact ⟨rfl, fun _ _ => rfl, fun _ _ => rfl, fun _ => le_refl _⟩

theorem relaxFold_frozen (u : ℕ) : ∀ (es : List Edge) (st : DState),
    (es.foldl (relaxEdge u) st).visited = st.visited ∧
    (∀ v ∈ st.visited, (es.foldl (relaxEdge u) st).dist v = st.dist v) ∧
    (∀ v ∈ st.visited, (es.foldl (relaxEdge u) st).pred v = st.pred v) ∧
    (∀ v, (es.foldl (relaxEdge u) st).dist v ≤ st.dist v)
  | [], st => ⟨rfl, fun _ _ => rfl, fun _ _ => rfl, fun _ => le_refl _⟩
  | e :: es, st => by
    obtain ⟨hv1, hd1, hp1, hle1⟩ := relaxEdge_frozen u st e
    obtain ⟨hv2, hd2, hp2, hle2⟩ := relaxFold_frozen u es (relaxEdge u st e)
    rw [List.foldl_cons]
    refine ⟨hv2.trans hv1, ?_, ?_, ?_⟩
    · intro v hv
      rw [hd2 v (hv1 ▸ hv), hd1 v hv]
    · intro v hv
      rw [hp2 v (hv1 ▸ hv), hp1 v hv]
    · intro v
      exact le_trans (hle2 v) (hle1 v)

theorem oneStep_eq_of_pop {g : Graph} {st : DState} {d : WithTop ℚ} {u : ℕ}
    {rest : List (WithTop ℚ × ℕ)} (hpop : heapPop st.heap = some ((d, u), rest)) :
    oneStep g st = popStep g st d u rest := by
  unfold oneStep
  rw [hpop]

theorem oneStep_frozen (g : Graph) (st : DState) (v : ℕ) (hv : v ∈ st.visited) :
    v ∈ (oneStep g st).visited ∧ (oneStep g st).dist v = st.dist v := by
  rcases hpop : heapPop st.heap with _ | p
  · rw [oneStep, hpop]
    exact ⟨hv, rfl⟩
  · rcases p with ⟨⟨d, u⟩, rest⟩
    rw [oneStep_eq_of_pop hpop, popStep]
    by_cases hu : u ∈ st.visited
    · rw [if_pos hu]
      exact ⟨hv, rfl⟩
    · rw [if_neg hu]
      by_cases hlt : st.dist u < d
      · rw [if_pos hlt]
        exact ⟨List.mem_append.mpr (Or.inl hv), rfl⟩
      · rw [if_neg hlt]
        obtain ⟨hv1, hd1, _, _⟩ := relaxFold_frozen u (g.get_neighbors u)
          { st with heap := rest, visited := st.visited ++ [u] }
        refine ⟨?_, ?_⟩
        · rw [hv1]
          exact List.mem_append.mpr (Or.inl hv)
        · exact hd1 v (List.mem_append.mpr (Or.inl hv))

theorem oneStep_of_heap_empty (g : Graph) (st : DState) (h : st.heap = []) :
    oneStep g st = st := by
  unfold oneStep
  rw [h]
  rfl

theorem iterate_frozen (g : Graph) (st : DState) (v : ℕ) (hv : v ∈ st.visited) :
    ∀ m : ℕ, v ∈ ((oneStep g)^[m] st).visited ∧ ((oneStep g)^[m] st).dist v = st.dist v := by
  intro m
  induction m with
  | zero => exact ⟨hv, rfl⟩
  | succ m ih =>
    rw [Function.iterate_succ_apply']
    obtain ⟨h1, h2⟩ := oneStep_frozen g ((oneStep g)^[m] st) v ih.1
    exact ⟨h1, h2.trans ih.2⟩

/-- The invariant maintained while the neighbor loop of a freshly visited
vertex `u` runs: all `Inv` fields except that the triangle inequality is
only guaranteed for previously visited vertices, plus the facts the loop
needs about `u` (its distance is final, minimal among visited, and below
every heap key). -/
structure RelaxInv (g : Graph) (s u : ℕ) (st : DState) : Prop where
  uVis : u ∈ st.visited
  uFin : st.dist u ≠ ⊤
  visLe : ∀ v ∈ st.visited, st.dist v ≤ st.dist u
  heapGe : ∀ d v, (d, v) ∈ st.heap → st.dist u ≤ d
  k1 : ∀ d v, (d, v) ∈ st.heap → st.dist v ≤ d
  k2 : ∀ v, v ∉ st.visited → st.dist v ≠ ⊤ → (st.dist v, v) ∈ st.heap
  k3 : ∀ v ∈ st.visited, ∀ d w, (d, w) ∈ st.heap → st.dist v ≤ d
  triMinus : ∀ v ∈ st.visited, v ≠ u → ∀ e ∈ g.adjacency_list v,
      st.dist e.destination ≤ st.dist v + (e.weight : WithTop ℚ)
  pathEx : ∀ v, st.dist v ≠ ⊤ → ∃ c : ℚ, IsPath g s v c ∧ st.dist v = (c : WithTop ℚ)
  src : st.dist s = 0
  predSrc : st.pred s = none
  predOk : ∀ v w, st.pred v = some w → w ∈ st.visited ∧ st.dist w ≠ ⊤ ∧
      ∃ e ∈ g.adjacency_list w, e.destination = v ∧
        st.dist v = st.dist w + (e.weight : WithTop ℚ)
  predFin : ∀ v, st.dist v ≠ ⊤ → v = s ∨ ∃ w, st.pred v = some w
  order : ∀ v ∈ st.visited, ∀ w, st.pred v = some w →
      rankIn st.visited w < rankIn st.visited v
  visFin : ∀ v ∈ st.visited, st.dist v ≠ ⊤
  heapFin : ∀ d v, (d, v) ∈ st.heap → d ≠ ⊤
  heapVert : ∀ d v, (d, v) ∈ st.heap → v < g.vertices
  visVert : ∀ v ∈ st.visited, v < g.vertices
  nodup : st.visited.Nodup
  nonneg : ∀ v, 0 ≤ st.dist v

theorem relaxEdge_eq_of_mem {u : ℕ} {st : DState} {e : Edge}
    (hmem : e.destination ∈ st.visited) : relaxEdge u st e = st := by
  rw [relaxEdge, if_pos hmem]

theorem relaxEdge_eq_of_no_improve {u : ℕ} {st : DState} {e : Edge}
    (hmem : e.destination ∉ st.visited)
    (himp : ¬ st.dist u + (e.weight : WithTop ℚ) < st.dist e.destination) :
    relaxEdge u st e = st := by
  rw [relaxEdge, if_neg hmem, if_neg himp]

theorem relaxEdge_update_eq {u : ℕ} {st : DState} {e : Edge}
    (hmem : e.destination ∉ st.visited)
    (himp : st.dist u + (e.weight : WithTop ℚ) < st.dist e.destination) :
    (relaxEdge u st e).dist
        = Function.update st.dist e.destination (st.dist u + (e.weight : WithTop ℚ)) ∧
    (relaxEdge u st e).pred = Function.update st.pred e.destination (some u) ∧
    (relaxEdge u st e).heap
        = (st.dist u + (e.weight : WithTop ℚ), e.destination) :: st.heap ∧
    (relaxEdge u st e).visited = st.visited := by
  rw [relaxEdge, if_neg hmem, if_pos himp]
  exact ⟨rfl, rfl, rfl, rfl⟩

theorem relaxEdge_inv (g : Graph) (s u : ℕ) (hwf : g.WF) (hnn : g.Nonneg)
    (e : Edge) (he : e ∈ g.adjacency_list u) (st : DState) (h : RelaxInv g s u st) :
    RelaxInv g s u (relaxEdge u st e) ∧
    (relaxEdge u st e).visited = st.visited ∧
    (relaxEdge u st e).dist u = st.dist u ∧
    (∀ v, (relaxEdge u st e).dist v ≤ st.dist v) ∧
    (relaxEdge u st e).dist e.destination
      ≤ (relaxEdge u st e).dist u + (e.weight : WithTop ℚ) := by
  have hw0 : (0 : WithTop ℚ) ≤ (e.weight : WithTop ℚ) := coe_weight_nonneg (hnn u e he)
  by_cases hmem : e.destination ∈ st.visited
  · rw [relaxEdge_eq_of_mem hmem]
    refine ⟨h, rfl, rfl, fun _ => le_refl _, ?_⟩
    exact le_trans (h.visLe _ hmem) (le_add_of_nonneg_right hw0)
  · by_cases himp : st.dist u + (e.weight : WithTop ℚ) < st.dist e.destination
    · obtain ⟨hD, hP, hH, hV⟩ := relaxEdge_update_eq hmem himp
      have htu : e.destination ≠ u := fun hh => hmem (hh ▸ h.uVis)
      have hndu : st.dist u ≤ st.dist u + (e.weight : WithTop ℚ) :=
        le_add_of_nonneg_right hw0
      have hnd0 : (0 : WithTop ℚ) ≤ st.dist u + (e.weight : WithTop ℚ) :=
        le_trans (h.nonneg u) hndu
      have hts : e.destination ≠ s := by
        intro hh
        rw [hh, h.src] at himp
        exact absurd himp (not_lt_of_le hnd0)
      have hndfin : st.dist u + (e.weight : WithTop ℚ) ≠ ⊤ :=
        WithTop.add_ne_top.mpr ⟨h.uFin, WithTop.coe_ne_top⟩
      have hdist_t : (relaxEdge u st e).dist e.destination
          = st.dist u + (e.weight : WithTop ℚ) := by
        rw [hD]
        exact Function.update_same _ _ _
      have hdist_ne : ∀ v, v ≠ e.destination →
          (relaxEdge u st e).dist v = st.dist v := by
        intro v hv
        rw [hD]
        exact Function.update_noteq hv _ _
      have hpred_t : (relaxEdge u st e).pred e.destination = some u := by
        rw [hP]
        exact Function.update_same _ _ _
      have hpred_ne : ∀ v, v ≠ e.destination →
          (relaxEdge u st e).pred v = st.pred v := by
        intro v hv
        rw [hP]
        exact Function.update_noteq hv _ _
      have hdist_le : ∀ v, (relaxEdge u st e).dist v ≤ st.dist v := by
        intro v
        by_cases hv : v = e.destination
        · subst hv
          rw [hdist_t]
          exact le_of_lt himp
        · rw [hdist_ne v hv]
      have hvne : ∀ v ∈ st.visited, v ≠ e.destination :=
        fun v hv hh => hmem (hh ▸ hv)
      refine ⟨?_, hV, hdist_ne u htu.symm, hdist_le, ?_⟩
      · refine ⟨?_, ?_, ?_, ?_, ?_, ?_, ?_, ?_, ?_, ?_, ?_, ?_, ?_, ?_, ?_, ?_,
          ?_, ?_, ?_, ?_⟩
        · rw [hV]
          exact h.uVis
        · rw [hdist_ne u htu.symm]
          exact h.uFin
        · intro v hv
          rw [hV] at hv
          rw [hdist_ne u htu.symm, hdist_ne v (hvne v hv)]
          exact h.visLe v hv
        · intro d v hdv
          rw [hH] at hdv
          rw [hdist_ne u htu.symm]
          rcases List.mem_cons.mp hdv with hh | hh
          · injection hh with h1 _
            rw [h1]
            exact hndu
          · exact h.heapGe d v hh
        · intro d v hdv
          rw [hH] at hdv
          rcases List.mem_cons.mp hdv with hh | hh
          · injection hh with h1 h2
            rw [h1, h2, hdist_t]
          · exact le_trans (hdist_le v) (h.k1 d v hh)
        · intro v hv hfin
          rw [hV] at hv
          rw [hH]
          by_cases hvt : v = e.destination
          · subst hvt
            rw [hdist_t]
            exact List.mem_cons_self _ _
          · rw [hdist_ne v hvt] at hfin ⊢
            exact List.mem_cons_of_mem _ (h.k2 v hv hfin)
        · intro v hv d w hdw
          rw [hV] at hv
          rw [hH] at hdw
          rw [hdist_ne v (hvne v hv)]
          rcases List.mem_cons.mp hdw with hh | hh
          · injection hh with h1 _
            rw [h1]
            exact le_trans (h.visLe v hv) hndu
          · exact h.k3 v hv d w hh
        · intro v hv hvu e2 he2
          rw [hV] at hv
          rw [hdist_ne v (hvne v hv)]
          exact le_trans (hdist_le e2.destination) (h.triMinus v hv hvu e2 he2)
        · intro v hfin
          by_cases hvt : v = e.destination
          · subst hvt
            rw [hdist_t] at hfin ⊢
            obtain ⟨c, pc, hc⟩ := h.pathEx u h.uFin
            refine ⟨c + e.weight, IsPath.tail e pc he, ?_⟩
            rw [hc]
            push_cast
            rfl
          · rw [hdist_ne v hvt] at hfin ⊢
            exact h.pathEx v hfin
        · rw [hdist_ne s hts.symm]
          exact h.src
        · rw [hpred_ne s hts.symm]
          exact h.predSrc
        · intro v w hvw
          by_cases hvt : v = e.destination
          · subst hvt
            rw [hpred_t] at hvw
            injection hvw with hw
            subst hw
            rw [hV]
            refine ⟨h.uVis, ?_, e, he, rfl, ?_⟩
            · rw [hdist_ne u htu.symm]
              exact h.uFin
            · rw [hdist_t, hdist_ne u htu.symm]
          · rw [hpred_ne v hvt] at hvw
            obtain ⟨hw1, hw2, e2, he2, hd2, hval⟩ := h.predOk v w hvw
            have hwt : w ≠ e.destination := fun hh => hmem (hh ▸ hw1)
            rw [hV]
            refine ⟨hw1, ?_, e2, he2, hd2, ?_⟩
            · rw [hdist_ne w hwt]
              exact hw2
            · rw [hdist_ne v hvt, hdist_ne w hwt]
              exact hval
        · intro v hfin
          by_cases hvt : v = e.destination
          · subst hvt
            right
            exact ⟨u, hpred_t⟩
          · rw [hdist_ne v hvt] at hfin
            rcases h.predFin v hfin with hh | ⟨w, hw⟩
            · exact Or.inl hh
            · refine Or.inr ⟨w, ?_⟩
              rw [hpred_ne v hvt]
              exact hw
        · intro v hv w hvw
          rw [hV] at hv ⊢
          rw [hpred_ne v (hvne v hv)] at hvw
          exact h.order v hv w hvw
        · intro v hv
          rw [hV] at hv
          rw [hdist_ne v (hvne v hv)]
          exact h.visFin v hv
        · intro d v hdv
          rw [hH] at hdv
          rcases List.mem_cons.mp hdv with hh | hh
          · injection hh with h1 _
            rw [h1]
            exact hndfin
          · exact h.heapFin d v hh
        · intro d v hdv
          rw [hH] at hdv
          rcases List.mem_cons.mp hdv with hh | hh
          · injection hh with _ h2
            rw [h2]
            exact hwf u e he
          · exact h.heapVert d v hh
        · rw [hV]
          exact h.visVert
        · rw [hV]
          exact h.nodup
        · intro v
          by_cases hvt : v = e.destination
          · subst hvt
            rw [hdist_t]
            exact hnd0
          · rw [hdist_ne v hvt]
            exact h.nonneg v
      · rw [hdist_t, hdist_ne u htu.symm]
    · rw [relaxEdge_eq_of_no_improve hmem himp]
      refine ⟨h, rfl, rfl, fun _ => le_refl _, le_of_not_lt himp⟩


theorem relaxFold_inv (g : Graph) (s u : ℕ) (hwf : g.WF) (hnn : g.Nonneg) :
    ∀ (es : List Edge) (st : DState),
    (∀ e ∈ es, e ∈ g.adjacency_list u) → RelaxInv g s u st →
    RelaxInv g s u (es.foldl (relaxEdge u) st) ∧
    (es.foldl (relaxEdge u) st).visited = st.visited ∧
    (es.foldl (relaxEdge u) st).dist u = st.dist u ∧
    (∀ v, (es.foldl (relaxEdge u) st).dist v ≤ st.dist v) ∧
    (∀ e ∈ es, (es.foldl (relaxEdge u) st).dist e.destination
      ≤ (es.foldl (relaxEdge u) st).dist u + (e.weight : WithTop ℚ))
  | [], st => by
    intro _ h
    exact ⟨h, rfl, rfl, fun _ => le_refl _, fun e he => by cases he⟩
  | e :: es, st => by
    intro hsub h
    have he : e ∈ g.adjacency_list u := hsub e (List.mem_cons_self _ _)
    obtain ⟨h1, hveq, hdu, hdle, hpe⟩ := relaxEdge_inv g s u hwf hnn e he st h
    obtain ⟨H1, Hveq, Hdu, Hdle, Hall⟩ := relaxFold_inv g s u hwf hnn es
      (relaxEdge u st e) (fun e2 he2 => hsub e2 (List.mem_cons_of_mem _ he2)) h1
    rw [List.foldl_cons]
    refine ⟨H1, Hveq.trans hveq, Hdu.trans hdu, ?_, ?_⟩
    · intro v
      exact le_trans (Hdle v) (hdle v)
    · intro e2 he2
      rcases List.mem_cons.mp he2 with rfl | he2
      · refine le_trans (Hdle e2.destination) (le_trans hpe ?_)
        rw [← Hdu]
      · exact Hall e2 he2

theorem oneStep_inv (g : Graph) (s : ℕ) (hwf : g.WF) (hnn : g.Nonneg)
    (st : DState) (h : Inv g s st) : Inv g s (oneStep g st) := by
  rcases hpop : heapPop st.heap with _ | p
  · rw [oneStep, hpop]
    exact h
  · rcases p with ⟨⟨d, u⟩, rest⟩
    rw [oneStep_eq_of_pop hpop]
    obtain ⟨hperm, hmin⟩ := heapPop_spec st.heap (d, u) rest hpop
    have hmemheap : (d, u) ∈ st.heap := hperm.mem_iff.mpr (List.mem_cons_self _ _)
    have hrest_sub : ∀ x ∈ rest, x ∈ st.heap :=
      fun x hx => hperm.mem_iff.mpr (List.mem_cons_of_mem _ hx)
    have hsplit : ∀ x ∈ st.heap, x = (d, u) ∨ x ∈ rest :=
      fun x hx => List.mem_cons.mp (hperm.mem_iff.mp hx)
    rw [popStep]
    by_cases hu : u ∈ st.visited
    · rw [if_pos hu]
      refine ⟨?_, ?_, ?_, h.tri, h.pathEx, h.src, h.predSrc, h.predOk, h.predFin,
        h.order, h.visFin, ?_, ?_, h.visVert, h.nodup, h.nonneg⟩
      · intro d2 u2 hd2
        exact h.k1 d2 u2 (hrest_sub _ hd2)
      · intro v hv hfin
        have hmem := h.k2 v hv hfin
        rcases hsplit _ hmem with hh | hh
        · injection hh with _ h2
          exact absurd (h2 ▸ hu) hv
        · exact hh
      · intro v hv d2 u2 hd2
        exact h.k3 v hv d2 u2 (hrest_sub _ hd2)
      · intro d2 u2 hd2
        exact h.heapFin d2 u2 (hrest_sub _ hd2)
      · intro d2 u2 hd2
        exact h.heapVert d2 u2 (hrest_sub _ hd2)
    · rw [if_neg hu]
      have hufin : st.dist u ≠ ⊤ :=
        ne_top_of_le_ne_top (h.heapFin d u hmemheap) (h.k1 d u hmemheap)
      have hdu : d = st.dist u := by
        have hle : st.dist u ≤ d := h.k1 d u hmemheap
        have hentry := h.k2 u hu hufin
        rcases hsplit _ hentry with hh | hh
        · injection hh with h1 _
          exact h1.symm
        · exact le_antisymm (hmin _ hh) hle
      rw [if_neg (show ¬ st.dist u < d by rw [hdu]; exact lt_irrefl _)]
      have hR : RelaxInv g s u { st with heap := rest, visited := st.visited ++ [u] } := by
        refine ⟨?_, hufin, ?_, ?_, ?_, ?_, ?_, ?_, h.pathEx, h.src, h.predSrc, ?_,
          h.predFin, ?_, ?_, ?_, ?_, ?_, ?_, h.nonneg⟩
        · exact List.mem_append.mpr (Or.inr (List.mem_singleton_self u))
        · intro v hv
          rcases List.mem_append.mp hv with hv | hv
          · have := h.k3 v hv d u hmemheap
            rw [hdu] at this
            exact this
          · rw [List.mem_singleton.mp hv]
        · intro d2 v hd2
          have := hmin _ hd2
          rw [hdu] at this
          exact this
        · intro d2 v hd2
          exact h.k1 d2 v (hrest_sub _ hd2)
        · intro v hv hfin
          have hvold : v ∉ st.visited :=
            fun hh => hv (List.mem_append.mpr (Or.inl hh))
          have hvu : v ≠ u :=
            fun hh => hv (List.mem_append.mpr (Or.inr (hh ▸ List.mem_singleton_self u)))
          have hmem := h.k2 v hvold hfin
          rcases hsplit _ hmem with hh | hh
          · injection hh with _ h2
            exact absurd h2 hvu
          · exact hh
        · intro v hv d2 w hd2
          rcases List.mem_append.mp hv with hv | hv
          · exact h.k3 v hv d2 w (hrest_sub _ hd2)
          · rw [List.mem_singleton.mp hv]
            have := hmin _ hd2
            rw [hdu] at this
            exact this
        · intro v hv hvu e2 he2
          rcases List.mem_append.mp hv with hv | hv
          · exact h.tri v hv e2 he2
          · exact absurd (List.mem_singleton.mp hv) hvu
        · intro v w hvw
          obtain ⟨hw1, hw2, e2, he2, hd2, hval⟩ := h.predOk v w hvw
          exact ⟨List.mem_append.mpr (Or.inl hw1), hw2, e2, he2, hd2, hval⟩
        · intro v hv w hvw
          rcases List.mem_append.mp hv with hv | hv
          · obtain ⟨hw1, _, _⟩ := h.predOk v w hvw
            rw [rankIn_append_of_mem hw1, rankIn_append_of_mem hv]
            exact h.order v hv w hvw
          · rw [List.mem_singleton.mp hv] at hvw ⊢
            obtain ⟨hw1, _, _⟩ := h.predOk u w hvw
            rw [rankIn_append_of_mem hw1, rankIn_append_self hu]
            exact rankIn_lt_length hw1
        · intro v hv
          rcases List.mem_append.mp hv with hv | hv
          · exact h.visFin v hv
          · rw [List.mem_singleton.mp hv]
            exact hufin
        · intro d2 v hd2
          exact h.heapFin d2 v (hrest_sub _ hd2)
        · intro d2 v hd2
          exact h.heapVert d2 v (hrest_sub _ hd2)
        · intro v hv
          rcases List.mem_append.mp hv with hv | hv
          · exact h.visVert v hv
          · rw [List.mem_singleton.mp hv]
            exact h.heapVert d u hmemheap
        · rw [List.nodup_append]
          refine ⟨h.nodup, List.nodup_singleton _, ?_⟩
          simpa [List.disjoint_singleton] using hu
      obtain ⟨H, hveq, _, _, hall⟩ := relaxFold_inv g s u hwf hnn (g.get_neighbors u)
        { st with heap := rest, visited := st.visited ++ [u] } (fun e he => he) hR
      refine ⟨H.k1, H.k2, H.k3, ?_, H.pathEx, H.src, H.predSrc, H.predOk, H.predFin,
        H.order, H.visFin, H.heapFin, H.heapVert, H.visVert, H.nodup, H.nonneg⟩
      intro v hv e2 he2
      by_cases hvu : v = u
      · subst hvu
        exact hall e2 he2
      · exact H.triMinus v hv hvu e2 he2

theorem dijkstraLoop_inv (g : Graph) (s : ℕ) (hwf : g.WF) (hnn : g.Nonneg) :
    ∀ (fuel : ℕ) (st : DState), Inv g s st → Inv g s (dijkstraLoop g fuel st)
  | 0, st => fun h => h
  | fuel + 1, st => by
    intro h
    rw [dijkstraLoop]
    rcases hpop : heapPop st.heap with _ | p
    · exact h
    · exact dijkstraLoop_inv g s hwf hnn fuel (oneStep g st) (oneStep_inv g s hwf hnn st h)

/-- Termination measure: heap size plus the total out-degree of the
unvisited vertices (each iteration strictly decreases it). -/
def potential (g : Graph) (st : DState) : ℕ :=
  st.heap.length +
    (((List.range g.vertices).filter (fun v => decide (v ∉ st.visited))).map
      (fun v => (g.adjacency_list v).length)).sum

theorem relaxEdge_heaplen (u : ℕ) (st : DState) (e : Edge) :
    (relaxEdge u st e).heap.length ≤ st.heap.length + 1 := by
  rw [relaxEdge]
  by_cases hmem : e.destination ∈ st.visited
  · rw [if_pos hmem]
    omega
  · rw [if_neg hmem]
    by_cases himp : st.dist u + (e.weight : WithTop ℚ) < st.dist e.destination
    · rw [if_pos himp]
      show ((st.dist u + (e.weight : WithTop ℚ), e.destination) :: st.heap).length
        ≤ st.heap.length + 1
      rw [List.length_cons]
    · rw [if_neg himp]
      omega

theorem relaxFold_heaplen (u : ℕ) : ∀ (es : List Edge) (st : DState),
    (es.foldl (relaxEdge u) st).heap.length ≤ st.heap.length + es.length
  | [], st => by simp
  | e :: es, st => by
    rw [List.foldl_cons]
    have h1 := relaxEdge_heaplen u st e
    have h2 := relaxFold_heaplen u es (relaxEdge u st e)
    simp only [List.length_cons]
    omega

theorem sum_unvisited_drop (g : Graph) (vis : List ℕ) (u : ℕ) (hun : u < g.vertices)
    (hu : u ∉ vis) :
    (((List.range g.vertices).filter (fun v => decide (v ∉ vis ++ [u]))).map
        (fun v => (g.adjacency_list v).length)).sum
      + (g.adjacency_list u).length
    = (((List.range g.vertices).filter (fun v => decide (v ∉ vis))).map
        (fun v => (g.adjacency_list v).length)).sum := by
  have hfeq : (List.range g.vertices).filter (fun v => decide (v ∉ vis ++ [u]))
      = ((List.range g.vertices).filter (fun v => decide (v ∉ vis))).filter
          (fun v => decide (v ≠ u)) := by
    rw [List.filter_filter]
    refine List.filter_congr ?_
    intro v _
    by_cases hv1 : v ∈ vis <;> by_cases hv2 : v = u <;>
      simp [List.mem_append, hv1, hv2]
  have huL : u ∈ (List.range g.vertices).filter (fun v => decide (v ∉ vis)) := by
    rw [List.mem_filter]
    exact ⟨List.mem_range.mpr hun, by simp [hu]⟩
  have hnd : ((List.range g.vertices).filter (fun v => decide (v ∉ vis))).Nodup :=
    List.Nodup.filter _ (List.nodup_range _)
  have herase : ((List.range g.vertices).filter (fun v => decide (v ∉ vis))).filter
      (fun v => decide (v ≠ u))
      = ((List.range g.vertices).filter (fun v => decide (v ∉ vis))).erase u := by
    rw [List.Nodup.erase_eq_filter hnd]
    refine List.filter_congr ?_
    intro v _
    by_cases hv : v = u <;> simp [hv, bne]
  have hperm := List.perm_cons_erase huL
  have hsum := (hperm.map (fun v => (g.adjacency_list v).length)).sum_eq
  rw [hfeq, herase]
  rw [List.map_cons, List.sum_cons] at hsum
  omega

theorem oneStep_potential (g : Graph) (s : ℕ) (st : DState) (h : Inv g s st)
    (hne : heapPop st.heap ≠ none) :
    potential g (oneStep g st) < potential g st := by
  rcases hpop : heapPop st.heap with _ | p
  · exact absurd hpop hne
  · rcases p with ⟨⟨d, u⟩, rest⟩
    obtain ⟨hperm, _⟩ := heapPop_spec st.heap (d, u) rest hpop
    have hlen : st.heap.length = rest.length + 1 := by
      have := hperm.length_eq
      simpa using this
    rw [oneStep_eq_of_pop hpop, popStep]
    by_cases hu : u ∈ st.visited
    · rw [if_pos hu]
      show rest.length
          + (((List.range g.vertices).filter (fun v => decide (v ∉ st.visited))).map
            (fun v => (g.adjacency_list v).length)).sum < potential g st
      rw [potential, hlen]
      omega
    · rw [if_neg hu]
      have hun : u < g.vertices :=
        h.heapVert d u (hperm.mem_iff.mpr (List.mem_cons_self _ _))
      have hdrop := sum_unvisited_drop g st.visited u hun hu
      by_cases hlt : st.dist u < d
      · rw [if_pos hlt]
        show rest.length
            + (((List.range g.vertices).filter
                (fun v => decide (v ∉ st.visited ++ [u]))).map
              (fun v => (g.adjacency_list v).length)).sum < potential g st
        rw [potential, hlen]
        omega
      · rw [if_neg hlt]
        have hhl2 : (List.foldl (relaxEdge u)
            { st with heap := rest, visited := st.visited ++ [u] }
            (g.get_neighbors u)).heap.length
            ≤ rest.length + (g.adjacency_list u).length :=
          relaxFold_heaplen u (g.get_neighbors u)
            { st with heap := rest, visited := st.visited ++ [u] }
        obtain ⟨hveq, _, _, _⟩ := relaxFold_frozen u (g.get_neighbors u)
          { st with heap := rest, visited := st.visited ++ [u] }
        rw [potential, hveq]
        show (List.foldl (relaxEdge u)
            { st with heap := rest, visited := st.visited ++ [u] }
            (g.get_neighbors u)).heap.length
          + (((List.range g.vertices).filter
              (fun v => decide (v ∉ st.visited ++ [u]))).map
            (fun v => (g.adjacency_list v).length)).sum < potential g st
        rw [potential, hlen]
        omega

theorem dijkstraLoop_drains (g : Graph) (s : ℕ) (hwf : g.WF) (hnn : g.Nonneg) :
    ∀ (fuel : ℕ) (st : DState), Inv g s st → potential g st ≤ fuel →
    (dijkstraLoop g fuel st).heap = []
  | 0, st => by
    intro _ hpot
    rw [dijkstraLoop]
    rw [potential] at hpot
    have : st.heap.length = 0 := by omega
    exact List.length_eq_zero.mp this
  | fuel + 1, st => by
    intro hInv hpot
    rw [dijkstraLoop]
    rcases hpop : heapPop st.heap with _ | p
    · exact (heapPop_eq_none_iff st.heap).mp hpop
    · have hdec := oneStep_potential g s st hInv (by rw [hpop]; exact fun hh => by cases hh)
      exact dijkstraLoop_drains g s hwf hnn fuel (oneStep g st)
        (oneStep_inv g s hwf hnn st hInv) (by omega)

theorem potential_init (g : Graph) (s : ℕ) :
    potential g (initState g s) = totalOut g + 1 := by
  rw [potential, initState]
  have hfilter : (List.range g.vertices).filter (fun v => decide (v ∉ ([] : List ℕ)))
      = List.range g.vertices := by
    refine List.filter_eq_self.mpr ?_
    intro v _
    simp
  show 1 + _ = totalOut g + 1
  rw [hfilter, totalOut]
  omega

theorem finalState_inv (g : Graph) (s : ℕ) (hwf : g.WF) (hnn : g.Nonneg)
    (hs : s < g.vertices) : Inv g s (finalState g s) :=
  dijkstraLoop_inv g s hwf hnn _ _ (initState_inv g s hs)

theorem finalState_heap_empty (g : Graph) (s : ℕ) (hwf : g.WF) (hnn : g.Nonneg)
    (hs : s < g.vertices) : (finalState g s).heap = [] := by
  rw [finalState]
  exact dijkstraLoop_drains g s hwf hnn _ _ (initState_inv g s hs)
    (le_of_eq (potential_init g s))

theorem fin_to_visited {g : Graph} {s : ℕ} {st : DState} (hInv : Inv g s st)
    (hempty : st.heap = []) {v : ℕ} (hfin : st.dist v ≠ ⊤) : v ∈ st.visited := by
  by_contra hvv
  have := hInv.k2 v hvv hfin
  rw [hempty] at this
  cases this

theorem dist_le_of_isPath {g : Graph} {s : ℕ} {st : DState} (hInv : Inv g s st)
    (hempty : st.heap = []) :
    ∀ (v : ℕ) (c : ℚ), IsPath g s v c → st.dist v ≤ (c : WithTop ℚ) := by
  intro v c hp
  induction hp with
  | refl =>
    rw [hInv.src]
    exact_mod_cast le_refl (0 : ℚ)
  | tail e hp he ih =>
    rename_i u c2
    have hufin : st.dist u ≠ ⊤ := ne_top_of_le_ne_top WithTop.coe_ne_top ih
    have huvis : u ∈ st.visited := fin_to_visited hInv hempty hufin
    have htri := hInv.tri u huvis e he
    refine le_trans htri (le_trans (add_le_add_right ih _) ?_)
    rw [← WithTop.coe_add]

theorem find_shortest_paths_eq (g : Graph) (s : ℕ) (hs : s < g.vertices) :
    find_shortest_paths g s = Except.ok
      { distances := fun v =>
          if v < g.vertices then some ((finalState g s).dist v) else none,
        predecessors := fun v =>
          if v < g.vertices then (finalState g s).pred v else none,
        source := s } := by
  rw [find_shortest_paths, if_neg (not_not_intro hs)]

/-- C1: on a well-formed graph with non-negative weights and a valid
source, `find_shortest_paths` returns distances over exactly the keys
`range(vertices)`; `distances[s] = 0`; and each recorded distance is a
lower bound on the weight of every walk from the source and is either `⊤`
with no walk existing, or the weight of an actual minimal walk. -/
theorem find_shortest_paths_correct (g : Graph) (s : ℕ)
    (hwf : g.WF) (hnn : g.Nonneg) (hs : s < g.vertices) :
    ∃ r : DijkstraResult, find_shortest_paths g s = Except.ok r ∧
      r.source = s ∧
      r.distances s = some 0 ∧
      (∀ v, g.vertices ≤ v → r.distances v = none) ∧
      (∀ v, v < g.vertices → ∃ dv, r.distances v = some dv ∧
        (∀ c : ℚ, IsPath g s v c → dv ≤ (c : WithTop ℚ)) ∧
        ((dv = ⊤ ∧ ∀ c : ℚ, ¬ IsPath g s v c) ∨
         (∃ c : ℚ, IsPath g s v c ∧ dv = (c : WithTop ℚ) ∧
           ∀ c2 : ℚ, IsPath g s v c2 → c ≤ c2))) := by
  have hInv := finalState_inv g s hwf hnn hs
  have hemp := finalState_heap_empty g s hwf hnn hs
  refine ⟨_, find_shortest_paths_eq g s hs, rfl, ?_, ?_, ?_⟩
  · show (if s < g.vertices then some ((finalState g s).dist s) else none) = some 0
    rw [if_pos hs, hInv.src]
  · intro v hv
    show (if v < g.vertices then some ((finalState g s).dist v) else none) = none
    rw [if_neg (not_lt_of_le hv)]
  · intro v hv
    refine ⟨(finalState g s).dist v, ?_, ?_, ?_⟩
    · show (if v < g.vertices then some ((finalState g s).dist v) else none) = _
      rw [if_pos hv]
    · intro c hc
      exact dist_le_of_isPath hInv hemp v c hc
    · by_cases hfin : (finalState g s).dist v = ⊤
      · left
        refine ⟨hfin, ?_⟩
        intro c hc
        have hle := dist_le_of_isPath hInv hemp v c hc
        rw [hfin] at hle
        exact absurd (top_le_iff.mp hle) WithTop.coe_ne_top
      · right
        obtain ⟨c, hpath, hcoe⟩ := hInv.pathEx v hfin
        refine ⟨c, hpath, hcoe, ?_⟩
        intro c2 hc2
        have hle := dist_le_of_isPath hInv hemp v c2 hc2
        rw [hcoe] at hle
        exact_mod_cast hle

theorem iterate_fixed_of_empty (g : Graph) (st : DState) (h : st.heap = []) :
    ∀ m : ℕ, (oneStep g)^[m] st = st := by
  intro m
  induction m with
  | zero => rfl
  | succ m ih =>
    rw [Function.iterate_succ_apply, oneStep_of_heap_empty g st h, ih]

theorem dijkstraLoop_eq_iterate (g : Graph) :
    ∀ (fuel : ℕ) (st : DState), dijkstraLoop g fuel st = (oneStep g)^[fuel] st
  | 0, st => rfl
  | fuel + 1, st => by
    rw [dijkstraLoop]
    rcases hpop : heapPop st.heap with _ | p
    · have hemp := (heapPop_eq_none_iff _).mp hpop
      exact (iterate_fixed_of_empty g st hemp (fuel + 1)).symm
    · rw [Function.iterate_succ_apply]
      exact dijkstraLoop_eq_iterate g fuel (oneStep g st)

/-- C2: once a vertex has been popped and added to `visited` (at any
iteration `k` of the main loop), its recorded distance is never changed by
any later iteration, and it already equals the true shortest-path
distance from the source (the weight of a minimal walk). -/
theorem visited_dist_final (g : Graph) (s : ℕ) (hwf : g.WF) (hnn : g.Nonneg)
    (hs : s < g.vertices) (k : ℕ) (v : ℕ)
    (hv : v ∈ ((oneStep g)^[k] (initState g s)).visited) :
    (∀ j, k ≤ j → ((oneStep g)^[j] (initState g s)).dist v
        = ((oneStep g)^[k] (initState g s)).dist v) ∧
    (∃ c : ℚ, IsPath g s v c ∧
      ((oneStep g)^[k] (initState g s)).dist v = (c : WithTop ℚ) ∧
      ∀ c2 : ℚ, IsPath g s v c2 → c ≤ c2) := by
  have hInv := finalState_inv g s hwf hnn hs
  have hemp := finalState_heap_empty g s hwf hnn hs
  have hfrozen : ∀ j, k ≤ j → ((oneStep g)^[j] (initState g s)).dist v
      = ((oneStep g)^[k] (initState g s)).dist v := by
    intro j hj
    have hsplit : j = (j - k) + k := by omega
    rw [hsplit, Function.iterate_add_apply]
    exact (iterate_frozen g ((oneStep g)^[k] (initState g s)) v hv (j - k)).2
  have hfinal_eq : ∀ j, totalOut g + 1 ≤ j →
      (oneStep g)^[j] (initState g s) = finalState g s := by
    intro j hj
    have hsplit : j = (j - (totalOut g + 1)) + (totalOut g + 1) := by omega
    have hF : (oneStep g)^[totalOut g + 1] (initState g s) = finalState g s :=
      (dijkstraLoop_eq_iterate g (totalOut g + 1) (initState g s)).symm
    rw [hsplit, Function.iterate_add_apply, hF]
    exact iterate_fixed_of_empty g (finalState g s) hemp _
  have hM : k ≤ max k (totalOut g + 1) := le_max_left _ _
  have hMF : totalOut g + 1 ≤ max k (totalOut g + 1) := le_max_right _ _
  have hdist_eq : ((oneStep g)^[k] (initState g s)).dist v = (finalState g s).dist v := by
    have h1 := hfrozen (max k (totalOut g + 1)) hM
    rw [hfinal_eq _ hMF] at h1
    exact h1.symm
  have hvfinal : v ∈ (finalState g s).visited := by
    have h1 := (iterate_frozen g ((oneStep g)^[k] (initState g s)) v hv
      (max k (totalOut g + 1) - k)).1
    rw [← Function.iterate_add_apply, show (max k (totalOut g + 1) - k) + k
      = max k (totalOut g + 1) from by omega, hfinal_eq _ hMF] at h1
    exact h1
  have hfin : (finalState g s).dist v ≠ ⊤ := hInv.visFin v hvfinal
  obtain ⟨c, hpath, hcoe⟩ := hInv.pathEx v hfin
  refine ⟨hfrozen, c, hpath, by rw [hdist_eq]; exact hcoe, ?_⟩
  intro c2 hc2
  have hle := dist_le_of_isPath hInv hemp v c2 hc2
  rw [hcoe] at hle
  exact_mod_cast hle

/-- C5: lazy deletion of stale heap entries: when the popped entry `(d, u)`
has `u` already visited, or a stale key `d > distances[u]`, the iteration
only discards the entry: `distances` and `predecessors` are unchanged and
the heap is the popped remainder (no relaxation is performed). -/
theorem stale_pop_no_relaxation (g : Graph) (st : DState) (d : WithTop ℚ)
    (u : ℕ) (rest : List (WithTop ℚ × ℕ))
    (hpop : heapPop st.heap = some ((d, u), rest))
    (hstale : u ∈ st.visited ∨ st.dist u < d) :
    (oneStep g st).dist = st.dist ∧ (oneStep g st).pred = st.pred ∧
    (oneStep g st).heap = rest := by
  rw [oneStep_eq_of_pop hpop, popStep]
  by_cases hu : u ∈ st.visited
  · rw [if_pos hu]
    exact ⟨rfl, rfl, rfl⟩
  · have hlt : st.dist u < d := hstale.resolve_left hu
    rw [if_neg hu, if_pos hlt]
    exact ⟨rfl, rfl, rfl⟩

/-- A one-vertex graph with no edges (witness helper). -/
def g0 : Graph := ⟨1, fun _ => []⟩

/-- A loop state about to pop a stale entry for the already-visited
vertex 0 (witness helper). -/
def staleState : DState :=
  { dist := fun _ => 0, pred := fun _ => none,
    heap := [((0 : WithTop ℚ), 0)], visited := [0] }

theorem stale_pop_no_relaxation_witness :
    heapPop staleState.heap = some (((0 : WithTop ℚ), 0), []) ∧
    (0 ∈ staleState.visited ∨ staleState.dist 0 < (0 : WithTop ℚ)) ∧
    ((oneStep g0 staleState).dist = staleState.dist ∧
     (oneStep g0 staleState).pred = staleState.pred ∧
     (oneStep g0 staleState).heap = []) :=
  ⟨rfl, Or.inl (List.mem_singleton.mpr rfl),
    stale_pop_no_relaxation g0 staleState 0 0 [] rfl
      (Or.inl (List.mem_singleton.mpr rfl))⟩

/-- C4: negative weights are rejected by the precondition checks alone:
`Edge.__post_init__` raises on `weight < 0`, so `add_edge` with a negative
weight raises (range error or weight error) and returns no graph; a
successful `add_edge` requires `weight ≥ 0` and in-range endpoints, only
appends the one edge to `adjacency_list[source]`, and preserves the
all-weights-non-negative and all-destinations-in-range invariants. -/
theorem add_edge_negative_rejected (g : Graph) (source destination : ℕ)
    (weight : ℚ) :
    (weight < 0 →
      (∃ msg, Edge.mkChecked destination weight = Except.error msg) ∧
      (∃ msg, g.add_edge source destination weight = Except.error msg)) ∧
    (∀ g2, g.add_edge source destination weight = Except.ok g2 →
      0 ≤ weight ∧ source < g.vertices ∧ destination < g.vertices ∧
      g2.vertices = g.vertices ∧
      g2.adjacency_list source
        = g.adjacency_list source ++ [⟨destination, weight⟩] ∧
      (∀ v, v ≠ source → g2.adjacency_list v = g.adjacency_list v) ∧
      (g.Nonneg → g2.Nonneg) ∧ (g.WF → g2.WF)) := by
  constructor
  · intro hw
    refine ⟨⟨"negative edge weight", ?_⟩, ?_⟩
    · rw [Edge.mkChecked, if_pos hw]
    · rw [Graph.add_edge]
      by_cases hr : source < g.vertices ∧ destination < g.vertices
      · rw [if_neg (not_not_intro hr), Edge.mkChecked, if_pos hw]
        exact ⟨"negative edge weight", rfl⟩
      · rw [if_pos hr]
        exact ⟨"vertex out of range", rfl⟩
  · intro g2 hok
    rw [Graph.add_edge] at hok
    by_cases hr : source < g.vertices ∧ destination < g.vertices
    · rw [if_neg (not_not_intro hr)] at hok
      by_cases hw : weight < 0
      · rw [Edge.mkChecked, if_pos hw] at hok
        exact Except.noConfusion hok
      · rw [Edge.mkChecked, if_neg hw] at hok
        have hok2 : Except.ok (ε := String)
            (⟨g.vertices, fun v =>
              if v = source then g.adjacency_list v ++ [⟨destination, weight⟩]
              else g.adjacency_list v⟩ : Graph) = Except.ok g2 := hok
        have hg2 := Except.ok.inj hok2
        refine ⟨le_of_not_lt hw, hr.1, hr.2, ?_, ?_, ?_, ?_, ?_⟩
        · rw [← hg2]
        · rw [← hg2]
          show (if source = source then _ else _) = _
          rw [if_pos rfl]
        · intro v hv
          rw [← hg2]
          show (if v = source then _ else _) = _
          rw [if_neg hv]
        · intro hnn
          rw [← hg2]
          intro v e he
          have he2 : e ∈ (if v = source
              then g.adjacency_list v ++ [⟨destination, weight⟩]
              else g.adjacency_list v) := he
          by_cases hv : v = source
          · rw [if_pos hv] at he2
            rcases List.mem_append.mp he2 with h | h
            · exact hnn v e h
            · rcases List.mem_singleton.mp h with rfl
              exact le_of_not_lt hw
          · rw [if_neg hv] at he2
            exact hnn v e he2
        · intro hwf
          rw [← hg2]
          intro v e he
          have he2 : e ∈ (if v = source
              then g.adjacency_list v ++ [⟨destination, weight⟩]
              else g.adjacency_list v) := he
          show e.destination < g.vertices
          by_cases hv : v = source
          · rw [if_pos hv] at he2
            rcases List.mem_append.mp he2 with h | h
            · exact hwf v e h
            · rcases List.mem_singleton.mp h with rfl
              exact hr.2
          · rw [if_neg hv] at he2
            exact hwf v e he2
    · rw [if_pos hr] at hok
      exact Except.noConfusion hok

/-- A two-vertex graph with the single edge `0 → 1` of weight 5
(witness helper). -/
def gW : Graph := ⟨2, fun v => if v = 0 then [⟨1, 5⟩] else []⟩

theorem gW_wf : gW.WF := by
  intro v e he
  have he2 : e ∈ (if v = 0 then [(⟨1, 5⟩ : Edge)] else []) := he
  show e.destination < 2
  by_cases hv : v = 0
  · rw [if_pos hv] at he2
    rcases List.mem_singleton.mp he2 with rfl
    decide
  · rw [if_neg hv] at he2
    cases he2

theorem gW_nonneg : gW.Nonneg := by
  intro v e he
  have he2 : e ∈ (if v = 0 then [(⟨1, 5⟩ : Edge)] else []) := he
  by_cases hv : v = 0
  · rw [if_pos hv] at he2
    rcases List.mem_singleton.mp he2 with rfl
    show (0 : ℚ) ≤ 5
    norm_num
  · rw [if_neg hv] at he2
    cases he2

theorem find_shortest_paths_correct_witness :
    gW.WF ∧ gW.Nonneg ∧ 0 < gW.vertices ∧
    (∃ r : DijkstraResult, find_shortest_paths gW 0 = Except.ok r ∧
      r.source = 0 ∧
      r.distances 0 = some 0 ∧
      (∀ v, gW.vertices ≤ v → r.distances v = none) ∧
      (∀ v, v < gW.vertices → ∃ dv, r.distances v = some dv ∧
        (∀ c : ℚ, IsPath gW 0 v c → dv ≤ (c : WithTop ℚ)) ∧
        ((dv = ⊤ ∧ ∀ c : ℚ, ¬ IsPath gW 0 v c) ∨
         (∃ c : ℚ, IsPath gW 0 v c ∧ dv = (c : WithTop ℚ) ∧
           ∀ c2 : ℚ, IsPath gW 0 v c2 → c ≤ c2)))) :=
  ⟨gW_wf, gW_nonneg, by decide,
    find_shortest_paths_correct gW 0 gW_wf gW_nonneg (by decide)⟩

theorem gW_mem : 0 ∈ ((oneStep gW)^[1] (initState gW 0)).visited := by
  have h : ((oneStep gW)^[1] (initState gW 0)).visited = [0] := rfl
  rw [h]
  exact List.mem_singleton.mpr rfl

theorem visited_dist_final_witness :
    gW.WF ∧ gW.Nonneg ∧ 0 < gW.vertices ∧
    0 ∈ ((oneStep gW)^[1] (initState gW 0)).visited ∧
    ((∀ j, 1 ≤ j → ((oneStep gW)^[j] (initState gW 0)).dist 0
        = ((oneStep gW)^[1] (initState gW 0)).dist 0) ∧
     (∃ c : ℚ, IsPath gW 0 0 c ∧
       ((oneStep gW)^[1] (initState gW 0)).dist 0 = (c : WithTop ℚ) ∧
       ∀ c2 : ℚ, IsPath gW 0 0 c2 → c ≤ c2)) :=
  ⟨gW_wf, gW_nonneg, by decide, gW_mem,
    visited_dist_final gW 0 gW_wf gW_nonneg (by decide) 1 0 gW_mem⟩

theorem walk_succ_none (P : ℕ → Option ℕ) (r v : ℕ) (h : P v = none) :
    walk P (r + 1) v = some [v] := by
  rw [walk, h]

theorem walk_succ_some (P : ℕ → Option ℕ) (r v w : ℕ) (h : P v = some w) :
    walk P (r + 1) v = (walk P r w).map (fun path => v :: path) := by
  rw [walk, h]

theorem length_le_of_nodup_bounded {l : List ℕ} {n : ℕ} (hnd : l.Nodup)
    (hb : ∀ x ∈ l, x < n) : l.length ≤ n := by
  classical
  have h1 : l.toFinset.card = l.length := List.toFinset_card_of_nodup hnd
  have h2 : l.toFinset ⊆ Finset.range n := by
    intro x hx
    rw [List.mem_toFinset] at hx
    exact Finset.mem_range.mpr (hb x hx)
  have h3 := Finset.card_le_card h2
  rw [h1, Finset.card_range] at h3
  exact h3

theorem GWalk_snoc {g : Graph} : ∀ {q : List ℕ} {c : ℚ}, GWalk g q c →
    ∀ {u : ℕ}, q.getLast? = some u → ∀ e : Edge, e ∈ g.adjacency_list u →
    GWalk g (q ++ [e.destination]) (c + e.weight) := by
  intro q c hw
  induction hw with
  | single v =>
    intro u hlast e he
    have huv : v = u := by simpa using hlast
    subst huv
    show GWalk g ([v] ++ [e.destination]) (0 + e.weight)
    rw [zero_add]
    have h2 := GWalk.cons v e he rfl (GWalk.single e.destination)
    rw [add_zero] at h2
    exact h2
  | cons u0 e0 he0 hdest0 htail ih =>
    intro u hlast e he
    rw [List.getLast?_cons_cons] at hlast
    have h1 := ih hlast e he
    have h2 := GWalk.cons u0 e0 he0 hdest0 h1
    rw [add_assoc]
    exact h2

theorem walk_spec (g : Graph) (s : ℕ) (st : DState) (hInv : Inv g s st)
    (P : ℕ → Option ℕ) (hP : ∀ x, x < g.vertices → P x = st.pred x) :
    ∀ (r : ℕ) (v : ℕ), v ∈ st.visited → rankIn st.visited v < r →
    ∃ p : List ℕ, walk P r v = some p ∧ p.head? = some v ∧
      p.getLast? = some s ∧
      ∃ c : ℚ, GWalk g p.reverse c ∧ st.dist v = (c : WithTop ℚ) := by
  intro r
  induction r with
  | zero =>
    intro v _ hr
    omega
  | succ r ih =>
    intro v hv hr
    have hvn : v < g.vertices := hInv.visVert v hv
    have hPv : P v = st.pred v := hP v hvn
    rcases hpred : st.pred v with _ | w
    · have hfin : st.dist v ≠ ⊤ := hInv.visFin v hv
      have hvs : v = s := by
        rcases hInv.predFin v hfin with h | ⟨u, hu⟩
        · exact h
        · rw [hpred] at hu
          cases hu
      subst hvs
      refine ⟨[v], walk_succ_none P r v (by rw [hPv, hpred]), rfl, rfl, 0, ?_, ?_⟩
      · show GWalk g [v].reverse 0
        rw [List.reverse_singleton]
        exact GWalk.single v
      · rw [hInv.src]
        exact (WithTop.coe_zero).symm
    · obtain ⟨hwvis, hwfin, e, he, hdest, hval⟩ := hInv.predOk v w hpred
      have hord := hInv.order v hv w hpred
      have hrw : rankIn st.visited w < r := by omega
      obtain ⟨p, hwalk, hhead, hlast, c, hgw, hcd⟩ := ih w hwvis hrw
      have hstep : walk P (r + 1) v = (walk P r w).map (fun path => v :: path) :=
        walk_succ_some P r v w (by rw [hPv, hpred])
      refine ⟨v :: p, ?_, rfl, ?_, c + e.weight, ?_, ?_⟩
      · rw [hstep, hwalk]
        rfl
      · cases p with
        | nil => exact Option.noConfusion hhead
        | cons a tl =>
          rw [List.getLast?_cons_cons]
          exact hlast
      · rw [List.reverse_cons]
        have hlastrev : p.reverse.getLast? = some w := by
          rw [List.getLast?_reverse]
          exact hhead
        have hsnoc := GWalk_snoc hgw hlastrev e he
        rw [hdest] at hsnoc
        exact hsnoc
      · rw [hval, hcd]
        norm_cast

theorem get_path_eq_none (r : DijkstraResult) (fuel v : ℕ)
    (h : r.distances v = none) : r.get_path fuel v = some none := by
  rw [DijkstraResult.get_path, h]

theorem get_path_eq_top (r : DijkstraResult) (fuel v : ℕ)
    (h : r.distances v = some ⊤) : r.get_path fuel v = some none := by
  rw [DijkstraResult.get_path, h]
  show (if (⊤ : WithTop ℚ) = ⊤ then some none
    else (walk r.predecessors fuel v).map (fun path => some path.reverse))
    = some none
  rw [if_pos rfl]

theorem get_path_eq_fin (r : DijkstraResult) (fuel v : ℕ) (d : WithTop ℚ)
    (h : r.distances v = some d) (hne : ¬ d = ⊤) :
    r.get_path fuel v
      = (walk r.predecessors fuel v).map (fun path => some path.reverse) := by
  rw [DijkstraResult.get_path, h]
  show (if d = ⊤ then some none
    else (walk r.predecessors fuel v).map (fun path => some path.reverse)) = _
  rw [if_neg hne]

/-- C3: on the result of `find_shortest_paths`, `get_path` returns `None`
exactly for vertices that are missing from `distances` (out of range) or
whose distance is infinite; for a finite distance it follows the
predecessor back-pointers (terminating within `vertices` steps) and
returns a vertex list from the source to the destination that follows
stored edges with total weight equal to the recorded distance. -/
theorem get_path_correct (g : Graph) (s : ℕ) (hwf : g.WF) (hnn : g.Nonneg)
    (hs : s < g.vertices) :
    ∃ r : DijkstraResult, find_shortest_paths g s = Except.ok r ∧
      (∀ v, r.distances v = none ↔ g.vertices ≤ v) ∧
      (∀ fuel v, r.distances v = none → r.get_path fuel v = some none) ∧
      (∀ fuel v, r.distances v = some ⊤ → r.get_path fuel v = some none) ∧
      (∀ v dv, r.distances v = some dv → dv ≠ ⊤ →
        ∃ p : List ℕ, r.get_path g.vertices v = some (some p) ∧
          p.head? = some s ∧ p.getLast? = some v ∧
          ∃ c : ℚ, GWalk g p c ∧ dv = (c : WithTop ℚ)) := by
  have hInv := finalState_inv g s hwf hnn hs
  have hemp := finalState_heap_empty g s hwf hnn hs
  refine ⟨_, find_shortest_paths_eq g s hs, ?_, ?_, ?_, ?_⟩
  · intro v
    show (if v < g.vertices then some ((finalState g s).dist v) else none)
      = none ↔ g.vertices ≤ v
    by_cases hv : v < g.vertices
    · rw [if_pos hv]
      constructor
      · intro h
        exact Option.noConfusion h
      · intro h
        exact absurd h (Nat.not_le.mpr hv)
    · rw [if_neg hv]
      constructor
      · intro _
        exact Nat.le_of_not_lt hv
      · intro _
        rfl
  · intro fuel v h
    exact get_path_eq_none _ fuel v h
  · intro fuel v h
    exact get_path_eq_top _ fuel v h
  · intro v dv hdv hne
    have hdv2 : (if v < g.vertices then some ((finalState g s).dist v) else none)
        = some dv := hdv
    have hvn : v < g.vertices := by
      by_contra hge
      rw [if_neg hge] at hdv2
      exact Option.noConfusion hdv2
    rw [if_pos hvn] at hdv2
    have hdvEq : dv = (finalState g s).dist v := (Option.some.inj hdv2).symm
    have hfin : (finalState g s).dist v ≠ ⊤ := by
      rw [← hdvEq]
      exact hne
    have hvis : v ∈ (finalState g s).visited := fin_to_visited hInv hemp hfin
    have hrank : rankIn (finalState g s).visited v < g.vertices := by
      have h1 := rankIn_lt_length hvis
      have h2 : (finalState g s).visited.length ≤ g.vertices :=
        length_le_of_nodup_bounded hInv.nodup hInv.visVert
      omega
    obtain ⟨p, hwalk, hhead, hlast, c, hgw, hcd⟩ :=
      walk_spec g s (finalState g s) hInv
        (fun v => if v < g.vertices then (finalState g s).pred v else none)
        (fun x hx => by
          show (if x < g.vertices then (finalState g s).pred x else none)
            = (finalState g s).pred x
          rw [if_pos hx]) g.vertices v hvis hrank
    refine ⟨p.reverse, ?_, ?_, ?_, c, hgw, ?_⟩
    · rw [get_path_eq_fin _ g.vertices v dv hdv hne]
      show (walk (fun v => if v < g.vertices then (finalState g s).pred v
        else none) g.vertices v).map (fun path => some path.reverse)
        = some (some p.reverse)
      rw [hwalk]
      rfl
    · rw [List.head?_reverse]
      exact hlast
    · rw [List.getLast?_reverse]
      exact hhead
    · rw [hdvEq]
      exact hcd

theorem get_path_correct_witness :
    gW.WF ∧ gW.Nonneg ∧ 0 < gW.vertices ∧
    (∃ r : DijkstraResult, find_shortest_paths gW 0 = Except.ok r ∧
      (∀ v, r.distances v = none ↔ gW.vertices ≤ v) ∧
      (∀ fuel v, r.distances v = none → r.get_path fuel v = some none) ∧
      (∀ fuel v, r.distances v = some ⊤ → r.get_path fuel v = some none) ∧
      (∀ v dv, r.distances v = some dv → dv ≠ ⊤ →
        ∃ p : List ℕ, r.get_path gW.vertices v = some (some p) ∧
          p.head? = some 0 ∧ p.getLast? = some v ∧
          ∃ c : ℚ, GWalk gW p c ∧ dv = (c : WithTop ℚ))) :=
  ⟨gW_wf, gW_nonneg, by decide,
    get_path_correct gW 0 gW_wf gW_nonneg (by decide)⟩

end Task3

end GoitAlgoFP
